import Mathlib

/-!
Verification development for a C++ file-system simulator
(`File_System.cpp`), which implements four block-allocation engines over a
fixed memory of `N` blocks: `ContiguousFileSystem` (with
first/best/worst/next-fit hole search over a `bitset<N>`),
`LinkedFileSystem` and `IndexedFileSystem` (explicit free-block queues),
and `ModifiedContiguousFileSystem` (contiguous runs chained on overflow).

Modelling conventions:
* `bitset<N>` is a function `Nat → Bool` together with the capacity
  `memory_size`.  `bitset::set`/`reset` throw `std::out_of_range` for an
  out-of-range position and `operator[]` is undefined there; both are
  modelled as `none` (the operation does not complete).  `int` indices
  that can legitimately be `-1` (the hole-search sentinel) are `Int`.
* every C++ method is a function from the receiver state to
  `Option (state × result)`; `none` means the call did not complete
  normally (an exception escaped or undefined behaviour was reached),
  `some` carries the post-state and the returned access count.
* `while` loops are fuel-indexed structural recursions; the fuel chosen
  at each call site dominates the loop's iteration count, and running out
  of fuel yields the same result as the loop exit (or `none` where the
  loop cannot exit by itself), so the functions evaluate by `rfl`.
* `unordered_map<string, File*>` is an association list with unique keys;
  insertion appends, `erase` filters, and in-place mutation through the
  `File*` pointer is an update of the stored entry.
-/

namespace FileSys

/-- The `Strategy` enum of `ContiguousFileSystem`. -/
inductive Strategy where
  | FIRST_FIT
  | BEST_FIT
  | NEXT_FIT
  | WORST_FIT
deriving DecidableEq

/-- `bitset<N>::operator[]` (read): out-of-range access is undefined
behaviour, modelled as `none`. -/
def bmGet (ms : Nat) (mm : Nat → Bool) (i : Nat) : Option Bool :=
  if i < ms then some (mm i) else none

/-- `bitset<N>::set`/`reset` at a `Nat` position: throws
(`none`) when the position is out of range. -/
def bmSet (ms : Nat) (mm : Nat → Bool) (i : Nat) (v : Bool) : Option (Nat → Bool) :=
  if i < ms then some (fun j => if j = i then v else mm j) else none

/-- `bitset<N>::set`/`reset` at a C++ `int` position (the position is
converted to `size_t`, so any negative value is out of range). -/
def bmSetI (ms : Nat) (mm : Nat → Bool) (i : Int) (v : Bool) : Option (Nat → Bool) :=
  if 0 ≤ i then bmSet ms mm i.toNat v else none

/-- The marking loops `for(i = 0; i < count; i++) memory_map.set(i+start)`
(and the corresponding `reset` loops), starting from an `int` base. -/
def writeRangeI (ms : Nat) (mm : Nat → Bool) (start : Int) (v : Bool) : Nat → Option (Nat → Bool)
  | 0 => some mm
  | k + 1 => (bmSetI ms mm start v).bind (fun mm' => writeRangeI ms mm' (start + 1) v k)

/-- The inner hole-scanning loop
`while(j < memory_size && j < stop && memory_map[j] == 0) j++` of the fit
functions (`stop` is `i+size` in first/next-fit; passing `stop = ms` makes
the middle conjunct redundant, as in best/worst-fit). -/
def runEndAux (mm : Nat → Bool) (ms stop : Nat) : Nat → Nat → Nat
  | 0, j => j
  | fuel + 1, j =>
    if j < ms ∧ j < stop ∧ mm j = false then runEndAux mm ms stop fuel (j + 1) else j

/-- Wrapper for `runEndAux` with enough fuel (`j` grows by one per
iteration and the loop stops at `ms`). -/
def runEnd (mm : Nat → Bool) (ms stop j : Nat) : Nat :=
  runEndAux mm ms stop ms j

/-- `ContiguousFileSystem::first_fit`: note the advance `i += j` (not
`i = j`) after a too-short hole. -/
def firstFitAux (mm : Nat → Bool) (ms size : Nat) : Nat → Nat → Int
  | 0, _ => -1
  | fuel + 1, i =>
    if i < ms then
      if mm i = false then
        let j := runEnd mm ms (i + size) i
        if j = i + size then (i : Int) else firstFitAux mm ms size fuel (i + j)
      else firstFitAux mm ms size fuel (i + 1)
    else -1

/-- `ContiguousFileSystem::first_fit` (the outer loop runs at most `ms`
times because `i` strictly increases). -/
def first_fit (mm : Nat → Bool) (ms size : Nat) : Int :=
  firstFitAux mm ms size (ms + 1) 0

/-- `ContiguousFileSystem::best_fit` body: `min_size` starts at
`INT_MAX = 2147483647`, `ind` at `-1`; a hole qualifies when
`j >= i+size && j-i <= min_size` and the scan advances with `i = j`. -/
def bestFitAux (mm : Nat → Bool) (ms size : Nat) : Nat → Nat → Nat → Int → Int
  | 0, _, _, ind => ind
  | fuel + 1, i, min_size, ind =>
    if i < ms then
      if mm i = false then
        let j := runEnd mm ms ms i
        if i + size ≤ j ∧ j - i ≤ min_size then bestFitAux mm ms size fuel j (j - i) (i : Int)
        else bestFitAux mm ms size fuel j min_size ind
      else bestFitAux mm ms size fuel (i + 1) min_size ind
    else ind

/-- `ContiguousFileSystem::best_fit`. -/
def best_fit (mm : Nat → Bool) (ms size : Nat) : Int :=
  bestFitAux mm ms size (ms + 1) 0 2147483647 (-1)

/-- `ContiguousFileSystem::worst_fit` body: `max_size` starts at 0, a
hole qualifies when `j >= i+size && j-i > max_size`, and the scan
advances with `i += j` in the free branch. -/
def worstFitAux (mm : Nat → Bool) (ms size : Nat) : Nat → Nat → Nat → Int → Int
  | 0, _, _, ind => ind
  | fuel + 1, i, max_size, ind =>
    if i < ms then
      if mm i = false then
        let j := runEnd mm ms ms i
        if i + size ≤ j ∧ max_size < j - i then worstFitAux mm ms size fuel (i + j) (j - i) (i : Int)
        else worstFitAux mm ms size fuel (i + j) max_size ind
      else worstFitAux mm ms size fuel (i + 1) max_size ind
    else ind

/-- `ContiguousFileSystem::worst_fit`. -/
def worst_fit (mm : Nat → Bool) (ms size : Nat) : Int :=
  worstFitAux mm ms size (ms + 1) 0 0 (-1)

/-- `ContiguousFileSystem::next_fit` body: starts at `start_index`,
wraps with `% memory_size`, counts scanned positions in `count`, and on
success returns `i` after setting `start_index = (j+i) % memory_size`.
The pair returned is (result, new `start_index`). -/
def nextFitAux (mm : Nat → Bool) (ms size start0 : Nat) : Nat → Nat → Nat → Int × Nat
  | 0, _, _ => (-1, start0)
  | fuel + 1, i, count =>
    if count < ms then
      if mm i = false then
        let j := runEnd mm ms (i + size) i
        if j = i + size then ((i : Int), (j + i) % ms)
        else nextFitAux mm ms size start0 fuel ((i + j) % ms) (count + j)
      else nextFitAux mm ms size start0 fuel ((i + 1) % ms) (count + 1)
    else (-1, start0)

/-- `ContiguousFileSystem::next_fit` (at most `ms` iterations since
`count` strictly increases). -/
def next_fit (mm : Nat → Bool) (ms size start0 : Nat) : Int × Nat :=
  nextFitAux mm ms size start0 (ms + 1) start0 0

/-- The data members `ContiguousFileSystem` shares with
`ModifiedContiguousFileSystem`: the block map, its capacity, the
next-fit cursor, the used-memory counter and the strategy. -/
structure CBase where
  memory_size : Nat
  memory_map : Nat → Bool
  start_index : Nat
  used_memory : Nat
  strategy : Strategy

/-- `ContiguousFileSystem::get_index`: dispatches on the strategy;
next-fit also updates the persisted cursor. -/
def cGetIndex (b : CBase) (size : Nat) : Int × CBase :=
  match b.strategy with
  | .FIRST_FIT => (first_fit b.memory_map b.memory_size size, b)
  | .BEST_FIT => (best_fit b.memory_map b.memory_size size, b)
  | .WORST_FIT => (worst_fit b.memory_map b.memory_size size, b)
  | .NEXT_FIT =>
    let r := next_fit b.memory_map b.memory_size size b.start_index
    (r.1, { b with start_index := r.2 })

/-- `ContiguousFileSystem::File`: `filesize` and `start_block`. -/
structure CFile where
  filesize : Nat
  start_block : Nat
deriving DecidableEq

/-- Full `ContiguousFileSystem` state. -/
structure CState where
  base : CBase
  file_map : List (String × CFile)

/-- `unordered_map::find` on the association-list model. -/
def fmFind {α : Type} : List (String × α) → String → Option α
  | [], _ => none
  | p :: rest, n => if p.1 = n then some p.2 else fmFind rest n

/-- `file_map[filename] = fp` for a fresh key: appends the entry. -/
def fmInsert {α : Type} (l : List (String × α)) (n : String) (v : α) : List (String × α) :=
  l ++ [(n, v)]

/-- `unordered_map::erase`. -/
def fmErase {α : Type} (l : List (String × α)) (n : String) : List (String × α) :=
  l.filter (fun p => p.1 ≠ n)

/-- Mutation of the metadata object reached through the stored `File*`. -/
def fmUpdate {α : Type} (l : List (String × α)) (n : String) (g : α → α) : List (String × α) :=
  l.map (fun p => if p.1 = n then (p.1, g p.2) else p)

/-- `ContiguousFileSystem::create`. -/
def cfsCreate (s : CState) (filename : String) (filesize : Nat) : Option CState :=
  if (fmFind s.file_map filename).isSome then some s
  else
    let r := cGetIndex s.base filesize
    if r.1 = -1 then some { s with base := r.2 }
    else
      (writeRangeI r.2.memory_size r.2.memory_map r.1 true filesize).map (fun mm' =>
        { base := { r.2 with memory_map := mm', used_memory := r.2.used_memory + filesize },
          file_map := fmInsert s.file_map filename ⟨filesize, r.1.toNat⟩ })

/-- The loop of `ContiguousFileSystem::read`:
`for(i = 0; i < filesize && read < size; i++){ if(i >= offset) read++; block_access++; }`.
Returns the final (`read`, `block_access`); the fuel is `filesize`. -/
def creadLoop (size offset : Nat) : Nat → Nat → Nat → Nat → Nat × Nat
  | 0, _, rd, ba => (rd, ba)
  | rem + 1, i, rd, ba =>
    if rd < size then
      if offset ≤ i then creadLoop size offset rem (i + 1) (rd + 1) (ba + 1)
      else creadLoop size offset rem (i + 1) rd (ba + 1)
    else (rd, ba)

/-- `ContiguousFileSystem::read`.  First component: the value the method
returns (`1` when the file is absent, otherwise `size+1`); second
component: the `block_access` counter the loop computed (which the
method does not return).  A default `size` argument of `-1` is
represented by `none`. -/
def cfsRead (s : CState) (filename : String) (sizeArg : Option Nat) (offset : Nat) : Nat × Nat :=
  match fmFind s.file_map filename with
  | none => (1, 1)
  | some fp =>
    let size := sizeArg.getD fp.filesize
    let r := creadLoop size offset fp.filesize 0 0 1
    (size + 1, r.2)

/-- The availability check of `ContiguousFileSystem::write`:
`for(available = 0; available < req; available++) if(memory_map[available+end] == 1) break;`
returning the final `available`; reads past `memory_size` are undefined
behaviour (`none`).  The first argument is the remaining trip count
`req - avail`. -/
def checkAvailAux (ms : Nat) (mm : Nat → Bool) (endb : Nat) : Nat → Nat → Option Nat
  | 0, avail => some avail
  | c + 1, avail =>
    (bmGet ms mm (avail + endb)).bind (fun bv =>
      if bv = true then some avail else checkAvailAux ms mm endb c (avail + 1))

/-- `ContiguousFileSystem::write`: on overflow (`size + offset > filesize`)
the `req = size+offset-filesize` blocks directly after the file's last
block must be free; then they are marked used and `filesize`/`used_memory`
grow.  The final loop only prints the written blocks and increments the
otherwise unused `block_access`; the method returns `size+1` whenever it
executes and `1` on not-found or failed allocation. -/
def cfsWrite (s : CState) (filename : String) (size offset : Nat) : Option (CState × Nat) :=
  match fmFind s.file_map filename with
  | none => some (s, 1)
  | some fp =>
    if fp.filesize < size + offset then
      let req := size + offset - fp.filesize
      let endb := fp.start_block + fp.filesize
      (checkAvailAux s.base.memory_size s.base.memory_map endb req 0).bind (fun avail =>
        if avail = req then
          (writeRangeI s.base.memory_size s.base.memory_map (endb : Int) true req).map
            (fun mm' =>
              ({ base :=
                   { s.base with
                     memory_map := mm'
                     used_memory := s.base.used_memory + req },
                 file_map := fmUpdate s.file_map filename
                   (fun f => { f with filesize := f.filesize + req }) }, size + 1))
        else some (s, 1))
    else some (s, size + 1)

/-- `ContiguousFileSystem::delete_file`: resets the file's blocks,
decrements `used_memory`, erases the entry. -/
def cfsDelete (s : CState) (filename : String) : Option CState :=
  match fmFind s.file_map filename with
  | none => some s
  | some fp =>
    (writeRangeI s.base.memory_size s.base.memory_map (fp.start_block : Int) false fp.filesize).map
      (fun mm' =>
        { base :=
            { s.base with
              memory_map := mm'
              used_memory := s.base.used_memory - fp.filesize },
          file_map := fmErase s.file_map filename })

/-- `ModifiedContiguousFileSystem::block`: a contiguous run descriptor. -/
structure MRun where
  start_block : Nat
  size : Nat
deriving DecidableEq

/-- `ModifiedContiguousFileSystem::File`: a size and a chain of run
descriptors (the linked `block` list, in link order). -/
structure MFile where
  filesize : Nat
  chain : List MRun
deriving DecidableEq

/-- Full `ModifiedContiguousFileSystem` state (its own `file_map` plus
the inherited `ContiguousFileSystem` members). -/
structure MState where
  base : CBase
  file_map : List (String × MFile)

/-- `ModifiedContiguousFileSystem::create`: as the contiguous create but
the metadata records a one-element run chain. -/
def mcfsCreate (s : MState) (filename : String) (filesize : Nat) : Option MState :=
  if (fmFind s.file_map filename).isSome then some s
  else
    let r := cGetIndex s.base filesize
    if r.1 = -1 then some { s with base := r.2 }
    else
      (writeRangeI r.2.memory_size r.2.memory_map r.1 true filesize).map (fun mm' =>
        { base := { r.2 with memory_map := mm', used_memory := r.2.used_memory + filesize },
          file_map := fmInsert s.file_map filename ⟨filesize, [⟨r.1.toNat, filesize⟩]⟩ })

/-- Inner loop of `ModifiedContiguousFileSystem::write` within one run:
`for(i = wrt; i < b->size && written != size; i++){ block_access++; written++; }`;
the first argument is the remaining trip count `b->size - wrt`. -/
def mInnerLoop (size : Nat) : Nat → Nat → Nat → Nat × Nat
  | 0, w, ba => (w, ba)
  | st + 1, w, ba => if w ≠ size then mInnerLoop size st (w + 1) (ba + 1) else (w, ba)

/-- The chain-traversal loop of `ModifiedContiguousFileSystem::write`
(`while(b && written < size)`).  Arguments after the chain: current
`offset` (which the body mutates by `offset += written`), `bno`,
`written`, `block_access`, and the number of nodes visited so far (the
last visited node is C++'s `last`).  Returns
(`written`, `block_access`, visited). -/
def mWriteLoop (size : Nat) : List MRun → Nat → Nat → Nat → Nat → Nat → Nat × Nat × Nat
  | [], _, _, w, ba, vis => (w, ba, vis)
  | b :: rest, offset, bno, w, ba, vis =>
    if w < size then
      if bno ≤ offset ∧ offset < bno + b.size then
        let wrt := offset - bno
        let ba1 := if wrt = 0 then ba else ba + 1
        let r := mInnerLoop size (b.size - wrt) w ba1
        mWriteLoop size rest (offset + r.1) (bno + b.size) r.1 r.2 (vis + 1)
      else mWriteLoop size rest offset (bno + b.size) w (ba + 1) (vis + 1)
    else (w, ba, vis)

/-- `ModifiedContiguousFileSystem::write`.  Faithful quirks: the
not-found branch returns `0`; on overflow the loop
`for(i = 0; i < req; i++) memory_map.set(i+index)` runs **before** the
`index == -1` test (so a failed hole search reaches `set(-1)`, which
throws: `none`); `last->next = newblock` dereferences a null `last`
(`none`) when the traversal visited no node; the method returns
`size+1` on success. -/
def mcfsWrite (s : MState) (filename : String) (size offset : Nat) : Option (MState × Nat) :=
  match fmFind s.file_map filename with
  | none => some (s, 0)
  | some fp =>
    if fp.filesize < size + offset then
      let req := size + offset - fp.filesize
      let r := cGetIndex s.base req
      (writeRangeI r.2.memory_size r.2.memory_map r.1 true req).bind (fun mm' =>
        if r.1 = -1 then some ({ s with base := { r.2 with memory_map := mm' } }, 1)
        else
          let t := mWriteLoop size fp.chain offset 0 0 1 0
          if t.2.2 = 0 then none
          else
            some ({ base :=
                      { r.2 with
                        memory_map := mm'
                        used_memory := r.2.used_memory + req },
                    file_map := fmUpdate s.file_map filename (fun f =>
                      { filesize := f.filesize + req,
                        chain := f.chain.take t.2.2 ++ [⟨r.1.toNat, req⟩] }) }, size + 1))
    else
      let _ := mWriteLoop size fp.chain offset 0 0 1 0
      some (s, size + 1)

/-- The deallocation loop of `ModifiedContiguousFileSystem::delete_file`:
resets every block of every run in the chain. -/
def resetChain (ms : Nat) (mm : Nat → Bool) : List MRun → Option (Nat → Bool)
  | [] => some mm
  | b :: rest =>
    (writeRangeI ms mm (b.start_block : Int) false b.size).bind (fun mm' =>
      resetChain ms mm' rest)

/-- `ModifiedContiguousFileSystem::delete_file`. -/
def mcfsDelete (s : MState) (filename : String) : Option MState :=
  match fmFind s.file_map filename with
  | none => some s
  | some fp =>
    (resetChain s.base.memory_size s.base.memory_map fp.chain).map (fun mm' =>
      { base :=
          { s.base with
            memory_map := mm'
            used_memory := s.base.used_memory - fp.filesize },
        file_map := fmErase s.file_map filename })

/-- `LinkedFileSystem::File`: a size and the block chain (node ids in
link order starting at `start_block`). -/
structure LFile where
  filesize : Nat
  chain : List Nat
deriving DecidableEq

/-- Full `LinkedFileSystem` state. -/
structure LState where
  memory_size : Nat
  free_list : List Nat
  file_map : List (String × LFile)
  used_memory : Nat
deriving DecidableEq

/-- The `LinkedFileSystem` constructor: blocks `0..N-1` pushed back in
order. -/
def lInit (n : Nat) : LState :=
  ⟨n, List.range n, [], 0⟩

/-- Popping `k` elements off the front of a list; `none` models
`front()`/`pop_front()` on an empty `std::list` (undefined behaviour). -/
def popN {α : Type} : Nat → List α → Option (List α × List α)
  | 0, l => some ([], l)
  | _ + 1, [] => none
  | k + 1, x :: rest => (popN k rest).map (fun p => (x :: p.1, p.2))

/-- `LinkedFileSystem::create`: after the duplicate and
`free_list.size() < size` guards it pops one block unconditionally and
then `size - 1` more in the linking loop (so a `size = 0` create still
consumes one block). -/
def lfsCreate (s : LState) (filename : String) (size : Nat) : Option LState :=
  if (fmFind s.file_map filename).isSome then some s
  else if s.free_list.length < size then some s
  else
    match s.free_list with
    | [] => none
    | b :: rest =>
      (popN (size - 1) rest).map (fun p =>
        { s with free_list := p.2,
                 file_map := fmInsert s.file_map filename ⟨size, b :: p.1⟩,
                 used_memory := s.used_memory + size })

/-- The loop of `LinkedFileSystem::write` (`while(written != size)`),
walking the chain by position `bno`; when the walk runs past the tail a
block is popped off the free list and appended (`prev->next`), growing
`filesize` and `used_memory`.  A null `prev` (empty chain) or an empty
free list is a crash (`none`).  Returns
(free list, chain, filesize, used_memory, block_access).  Fuel
`offset + size + 1` dominates the trip count since `bno` increments
every iteration and the loop exits once `written = size` at
`bno = offset + size`. -/
def lWriteLoop (size offset : Nat) :
    Nat → List Nat → List Nat → Nat → Nat → Nat → Nat → Nat →
    Option (List Nat × List Nat × Nat × Nat × Nat)
  | 0, _, _, _, _, _, _, _ => none
  | fuel + 1, free, chain, fs, used, bno, w, ba =>
    if w ≠ size then
      if bno < chain.length then
        if offset ≤ bno then lWriteLoop size offset fuel free chain fs used (bno + 1) (w + 1) (ba + 1)
        else lWriteLoop size offset fuel free chain fs used (bno + 1) w (ba + 1)
      else
        match free with
        | [] => none
        | nb :: free' =>
          if chain.isEmpty then none
          else
            if offset ≤ bno then
              lWriteLoop size offset fuel free' (chain ++ [nb]) (fs + 1) (used + 1) (bno + 1) (w + 1) (ba + 1)
            else
              lWriteLoop size offset fuel free' (chain ++ [nb]) (fs + 1) (used + 1) (bno + 1) w (ba + 1)
    else some (free, chain, fs, used, ba)

/-- `LinkedFileSystem::write`. -/
def lfsWrite (s : LState) (filename : String) (size offset : Nat) : Option (LState × Nat) :=
  match fmFind s.file_map filename with
  | none => some (s, 1)
  | some fp =>
    if fp.filesize < offset + size ∧ s.free_list.length < offset + size - fp.filesize then
      some (s, 1)
    else
      (lWriteLoop size offset (offset + size + 1) s.free_list fp.chain fp.filesize s.used_memory 0 0 1).map
        (fun r =>
          ({ s with free_list := r.1,
                    file_map := fmUpdate s.file_map filename
                      (fun f => { f with filesize := r.2.2.1, chain := r.2.1 }),
                    used_memory := r.2.2.2.1 }, r.2.2.2.2))

/-- `LinkedFileSystem::delete_file`: pushes every chain node to the back
of the free list in chain order. -/
def lfsDelete (s : LState) (filename : String) : Option LState :=
  match fmFind s.file_map filename with
  | none => some s
  | some fp =>
    some { s with free_list := s.free_list ++ fp.chain,
                  used_memory := s.used_memory - fp.filesize,
                  file_map := fmErase s.file_map filename }

/-- `IndexedFileSystem::File`: a size and the index table. -/
structure IFile where
  filesize : Nat
  block_indices : List Nat
deriving DecidableEq

/-- Full `IndexedFileSystem` state. -/
structure IState where
  memory_size : Nat
  free_list : List Nat
  file_map : List (String × IFile)
  used_memory : Nat
deriving DecidableEq

/-- The `IndexedFileSystem` constructor. -/
def iInit (n : Nat) : IState :=
  ⟨n, List.range n, [], 0⟩

/-- `IndexedFileSystem::create`: pops `size` blocks into the index
table.  Its success log then reads `fp->block_indices[0]`
unconditionally; for `size = 0` the table is empty and that
`vector::operator[]` access is out of bounds (undefined behaviour),
modelled as `none`. -/
def ifsCreate (s : IState) (filename : String) (size : Nat) : Option IState :=
  if (fmFind s.file_map filename).isSome then some s
  else if s.free_list.length < size then some s
  else
    (popN size s.free_list).bind (fun p =>
      if p.1 = [] then none
      else some
        { s with free_list := p.2,
                 used_memory := s.used_memory + size,
                 file_map := fmInsert s.file_map filename ⟨size, p.1⟩ })

/-- The loop of `IndexedFileSystem::write` (`while(written < size)`,
`written` increments every iteration, so the remaining count is the
first argument): when `bno` reaches the table length a free block is
popped and appended; then `block_indices[bno]` is accessed — out of
bounds (`vector::operator[]` UB) is `none`.  Returns
(free list, table, filesize, used_memory, block_access). -/
def iWriteLoop : Nat → List Nat → List Nat → Nat → Nat → Nat → Nat →
    Option (List Nat × List Nat × Nat × Nat × Nat)
  | 0, free, tbl, fs, used, _, ba => some (free, tbl, fs, used, ba)
  | r + 1, free, tbl, fs, used, bno, ba =>
    if tbl.length ≤ bno then
      match free with
      | [] => none
      | nb :: free' =>
        let tbl' := tbl ++ [nb]
        if bno < tbl'.length then iWriteLoop r free' tbl' (fs + 1) (used + 1) (bno + 1) (ba + 1)
        else none
    else iWriteLoop r free tbl fs used (bno + 1) (ba + 1)

/-- `IndexedFileSystem::write`. -/
def ifsWrite (s : IState) (filename : String) (size offset : Nat) : Option (IState × Nat) :=
  match fmFind s.file_map filename with
  | none => some (s, 1)
  | some fp =>
    if fp.filesize < offset + size ∧ s.free_list.length < offset + size - fp.filesize then
      some (s, 1)
    else
      (iWriteLoop size s.free_list fp.block_indices fp.filesize s.used_memory offset 1).map
        (fun r =>
          ({ s with free_list := r.1,
                    used_memory := r.2.2.2.1,
                    file_map := fmUpdate s.file_map filename
                      (fun f => { f with filesize := r.2.2.1, block_indices := r.2.1 }) },
           r.2.2.2.2))

/-- `IndexedFileSystem::delete_file`: pushes every table entry to the
back of the free list in table order. -/
def ifsDelete (s : IState) (filename : String) : Option IState :=
  match fmFind s.file_map filename with
  | none => some s
  | some fp =>
    some { s with free_list := s.free_list ++ fp.block_indices,
                  used_memory := s.used_memory - fp.filesize,
                  file_map := fmErase s.file_map filename }

/-- The mutating commands of the driver's command stream (`READ` never
mutates any allocator and is omitted from sequences). -/
inductive Op where
  | create (name : String) (size : Nat)
  | write (name : String) (size offset : Nat)
  | delete (name : String)
deriving DecidableEq

/-- One driver command against a `ContiguousFileSystem`. -/
def cStep (s : CState) : Op → Option CState
  | .create n k => cfsCreate s n k
  | .write n k off => (cfsWrite s n k off).map Prod.fst
  | .delete n => cfsDelete s n

/-- One driver command against a `ModifiedContiguousFileSystem`. -/
def mStep (s : MState) : Op → Option MState
  | .create n k => mcfsCreate s n k
  | .write n k off => (mcfsWrite s n k off).map Prod.fst
  | .delete n => mcfsDelete s n

/-- One driver command against a `LinkedFileSystem`. -/
def lStep (s : LState) : Op → Option LState
  | .create n k => lfsCreate s n k
  | .write n k off => (lfsWrite s n k off).map Prod.fst
  | .delete n => lfsDelete s n

/-- One driver command against an `IndexedFileSystem`. -/
def iStep (s : IState) : Op → Option IState
  | .create n k => ifsCreate s n k
  | .write n k off => (ifsWrite s n k off).map Prod.fst
  | .delete n => ifsDelete s n

/-- Running a command sequence; `none` as soon as one call crashes. -/
def runOps {σ : Type} (step : σ → Op → Option σ) : σ → List Op → Option σ
  | s, [] => some s
  | s, op :: rest => (step s op).bind (fun s' => runOps step s' rest)

/-- The `ContiguousFileSystem` constructor state. -/
def cInit (n : Nat) (strat : Strategy) : CState :=
  ⟨⟨n, fun _ => false, 0, 0, strat⟩, []⟩

/-- The `ModifiedContiguousFileSystem` constructor state. -/
def mInit (n : Nat) (strat : Strategy) : MState :=
  ⟨⟨n, fun _ => false, 0, 0, strat⟩, []⟩

/-- Sum of the sizes of the live files of a registry. -/
def sumSizes {α : Type} (fsOf : α → Nat) (l : List (String × α)) : Nat :=
  (l.map (fun p => fsOf p.2)).sum

/-- Number of set bits of the block map (`popcount`). -/
def popcount (ms : Nat) (mm : Nat → Bool) : Nat :=
  ((Finset.range ms).filter (fun b => mm b = true)).card

/-! ### Registry lemmas -/

theorem fmFind_eq_none {α : Type} (l : List (String × α)) (n : String) :
    fmFind l n = none ↔ n ∉ l.map Prod.fst := by
  induction l with
  | nil => simp [fmFind]
  | cons p rest ih =>
    simp only [fmFind, List.map_cons, List.mem_cons]
    by_cases h : p.1 = n
    · simp [h]
    · rw [if_neg h, ih]
      constructor
      · intro hn hc
        rcases hc with hc | hc
        · exact h hc.symm
        · exact hn hc
      · intro hn hc
        exact hn (Or.inr hc)

theorem fmFind_insert_self {α : Type} (l : List (String × α)) (n : String) (v : α)
    (h : fmFind l n = none) : fmFind (fmInsert l n v) n = some v := by
  induction l with
  | nil => simp [fmInsert, fmFind]
  | cons p rest ih =>
    by_cases hp : p.1 = n
    · simp [fmFind, hp] at h
    · simp only [fmFind, hp, if_neg] at h
      show fmFind (p :: (rest ++ [(n, v)])) n = some v
      simp only [fmFind, if_neg hp]
      exact ih h

theorem fmErase_of_find_none {α : Type} (l : List (String × α)) (n : String)
    (h : fmFind l n = none) : fmErase l n = l := by
  induction l with
  | nil => rfl
  | cons p rest ih =>
    by_cases hp : p.1 = n
    · simp [fmFind, hp] at h
    · simp only [fmFind, hp, if_neg] at h
      show List.filter _ (p :: rest) = p :: rest
      rw [List.filter_cons_of_pos (by simpa using hp)]
      exact congrArg (p :: ·) (ih h)

theorem fmErase_insert {α : Type} (l : List (String × α)) (n : String) (v : α)
    (h : fmFind l n = none) : fmErase (fmInsert l n v) n = l := by
  have e1 : fmErase l n = l := fmErase_of_find_none l n h
  show List.filter _ (l ++ [(n, v)]) = l
  rw [List.filter_append]
  have e2 : List.filter (fun p => decide (p.1 ≠ n)) [(n, v)] = [] := by simp
  rw [e2]
  simpa [fmErase] using e1

/-- `fmFind` returning a value splits the list at the first hit. -/
theorem fmFind_split {α : Type} (l : List (String × α)) (n : String) (v : α)
    (h : fmFind l n = some v) :
    ∃ l1 l2, l = l1 ++ (n, v) :: l2 ∧ n ∉ l1.map Prod.fst := by
  induction l with
  | nil => simp [fmFind] at h
  | cons p rest ih =>
    by_cases hp : p.1 = n
    · refine ⟨[], rest, ?_, by simp⟩
      simp only [fmFind, hp, if_pos] at h
      obtain rfl : p.2 = v := by injection h
      simp [← hp]
    · simp only [fmFind, hp, if_neg] at h
      obtain ⟨l1, l2, hsplit, hmem⟩ := ih h
      refine ⟨p :: l1, l2, by simp [hsplit], ?_⟩
      simp only [List.map_cons, List.mem_cons]
      rintro (hc | hc)
      · exact hp hc.symm
      · exact hmem hc

theorem fmFind_append_left {α : Type} (l1 l2 : List (String × α)) (n : String)
    (h : n ∉ l1.map Prod.fst) : fmFind (l1 ++ l2) n = fmFind l2 n := by
  induction l1 with
  | nil => rfl
  | cons p rest ih =>
    simp only [List.map_cons, List.mem_cons] at h
    push_neg at h
    have hne : ¬p.1 = n := fun hc => h.1 hc.symm
    show fmFind (p :: (rest ++ l2)) n = fmFind l2 n
    rw [show fmFind (p :: (rest ++ l2)) n = if p.1 = n then some p.2 else fmFind (rest ++ l2) n
      from rfl]
    rw [if_neg hne]
    exact ih h.2

theorem fmErase_eq_of_split {α : Type} (l1 l2 : List (String × α)) (n : String) (v : α)
    (h1 : n ∉ l1.map Prod.fst) (h2 : n ∉ l2.map Prod.fst) :
    fmErase (l1 ++ (n, v) :: l2) n = l1 ++ l2 := by
  have e1 : fmErase l1 n = l1 := fmErase_of_find_none l1 n ((fmFind_eq_none l1 n).2 h1)
  have e2 : fmErase l2 n = l2 := fmErase_of_find_none l2 n ((fmFind_eq_none l2 n).2 h2)
  show List.filter _ (l1 ++ (n, v) :: l2) = l1 ++ l2
  rw [List.filter_append, List.filter_cons_of_neg (by simp)]
  simp only [fmErase] at e1 e2
  rw [e1, e2]

theorem fmUpdate_nofind {α : Type} (l : List (String × α)) (n : String) (g : α → α)
    (h : n ∉ l.map Prod.fst) : fmUpdate l n g = l := by
  induction l with
  | nil => rfl
  | cons p rest ih =>
    simp only [List.map_cons, List.mem_cons] at h
    push_neg at h
    show List.map _ (p :: rest) = p :: rest
    rw [List.map_cons, if_neg (fun hc => h.1 hc.symm)]
    exact congrArg (p :: ·) (ih h.2)

theorem fmUpdate_eq_of_split {α : Type} (l1 l2 : List (String × α)) (n : String) (v : α)
    (g : α → α) (h1 : n ∉ l1.map Prod.fst) (h2 : n ∉ l2.map Prod.fst) :
    fmUpdate (l1 ++ (n, v) :: l2) n g = l1 ++ (n, g v) :: l2 := by
  have e1 : fmUpdate l1 n g = l1 := fmUpdate_nofind l1 n g h1
  have e2 : fmUpdate l2 n g = l2 := fmUpdate_nofind l2 n g h2
  show List.map _ (l1 ++ (n, v) :: l2) = l1 ++ (n, g v) :: l2
  rw [List.map_append, List.map_cons, if_pos rfl]
  simp only [fmUpdate] at e1 e2
  rw [e1, e2]

/-! ### Block-map range update lemmas -/

theorem writeRangeI_zero (ms : Nat) (mm : Nat → Bool) (a : Int) (v : Bool) :
    writeRangeI ms mm a v 0 = some mm := rfl

theorem writeRangeI_nat_eq (ms : Nat) (v : Bool) :
    ∀ (k : Nat) (mm : Nat → Bool) (a : Nat), a + k ≤ ms →
      writeRangeI ms mm (a : Int) v k =
        some (fun t => if a ≤ t ∧ t < a + k then v else mm t) := by
  intro k
  induction k with
  | zero =>
    intro mm a _
    simp only [writeRangeI]
    congr 1
    funext t
    rw [if_neg (by omega)]
  | succ k ih =>
    intro mm a h
    have ha : a < ms := by omega
    have hstep : bmSetI ms mm (a : Int) v =
        some (fun j => if j = a then v else mm j) := by
      simp [bmSetI, bmSet, ha]
    have hcast : ((a : Int) + 1) = ((a + 1 : Nat) : Int) := by omega
    have hrec := ih (fun j => if j = a then v else mm j) (a + 1) (by omega)
    simp only [writeRangeI, hstep, hcast]
    rw [show ((some fun j => if j = a then v else mm j).bind fun m =>
        writeRangeI ms m ((a + 1 : Nat) : Int) v k) =
        writeRangeI ms (fun j => if j = a then v else mm j) ((a + 1 : Nat) : Int) v k from rfl]
    rw [hrec]
    congr 1
    funext t
    by_cases h1 : t = a
    · subst h1
      rw [if_neg (by omega : ¬(t + 1 ≤ t ∧ t < t + 1 + k))]
      show (if t = t then v else mm t) = if t ≤ t ∧ t < t + (k + 1) then v else mm t
      rw [if_pos rfl, if_pos (by omega)]
    · have hb : (fun j => if j = a then v else mm j) t = mm t := if_neg h1
      rw [hb]
      by_cases h2 : a + 1 ≤ t ∧ t < a + 1 + k
      · rw [if_pos h2, if_pos (by omega)]
      · rw [if_neg h2, if_neg (by omega)]

theorem writeRangeI_nat_isSome_bound (ms : Nat) (v : Bool) :
    ∀ (k : Nat) (mm : Nat → Bool) (a : Nat), (writeRangeI ms mm (a : Int) v k).isSome →
      0 < k → a + k ≤ ms := by
  intro k
  induction k with
  | zero => intro mm a _ h0; omega
  | succ k ih =>
    intro mm a h _
    simp only [writeRangeI, bmSetI, bmSet] at h
    by_cases ha : a < ms
    · simp only [Int.ofNat_nonneg, if_true, ha, Int.toNat_ofNat, if_pos] at h
      rcases Nat.eq_zero_or_pos k with hk | hk
      · omega
      · have : ((a : Int) + 1) = ((a + 1 : Nat) : Int) := by push_cast; ring
        rw [this] at h
        have := ih _ (a + 1) (by simpa using h) hk
        omega
    · simp [ha, Int.toNat_ofNat] at h

/-! ### Hole-scan lemmas -/

theorem runEndAux_spec (mm : Nat → Bool) (ms stop : Nat) :
    ∀ (fuel j : Nat), ms ≤ j + fuel →
      j ≤ runEndAux mm ms stop fuel j ∧
      (∀ t, j ≤ t → t < runEndAux mm ms stop fuel j →
        t < ms ∧ t < stop ∧ mm t = false) ∧
      ¬(runEndAux mm ms stop fuel j < ms ∧ runEndAux mm ms stop fuel j < stop ∧
        mm (runEndAux mm ms stop fuel j) = false) := by
  intro fuel
  induction fuel with
  | zero =>
    intro j hj
    simp only [runEndAux]
    refine ⟨Nat.le_refl j, fun t h1 h2 => absurd h2 (by omega), ?_⟩
    intro ⟨h1, _, _⟩
    omega
  | succ fuel ih =>
    intro j hj
    simp only [runEndAux]
    by_cases hc : j < ms ∧ j < stop ∧ mm j = false
    · rw [if_pos hc]
      obtain ⟨ha, hb, hcend⟩ := ih (j + 1) (by omega)
      refine ⟨by omega, ?_, hcend⟩
      intro t h1 h2
      rcases Nat.eq_or_lt_of_le h1 with h | h
      · exact h ▸ hc
      · exact hb t h h2
    · rw [if_neg hc]
      exact ⟨Nat.le_refl j, fun t h1 h2 => absurd h2 (by omega), hc⟩

theorem runEnd_spec (mm : Nat → Bool) (ms stop j : Nat) :
    j ≤ runEnd mm ms stop j ∧
    (∀ t, j ≤ t → t < runEnd mm ms stop j → t < ms ∧ t < stop ∧ mm t = false) ∧
    ¬(runEnd mm ms stop j < ms ∧ runEnd mm ms stop j < stop ∧
      mm (runEnd mm ms stop j) = false) :=
  runEndAux_spec mm ms stop ms j (by omega)

/-- Soundness property of a hole-search result: every block of the run
of `size` blocks starting at the returned index is in range and free.
(For `size = 0` nothing is claimed: next-fit with `size = 0` can return
its cursor without ever comparing it against `memory_size`.) -/
def FitSound (mm : Nat → Bool) (ms size : Nat) (r : Int) : Prop :=
  ∃ a : Nat, r = (a : Int) ∧ ∀ t, a ≤ t → t < a + size → t < ms ∧ mm t = false

theorem run_gives_fit {mm : Nat → Bool} {ms size i : Nat}
    (heq : runEnd mm ms (i + size) i = i + size) :
    FitSound mm ms size (i : Int) := by
  obtain ⟨h1, h2, h3⟩ := runEnd_spec mm ms (i + size) i
  refine ⟨i, rfl, ?_⟩
  intro t ht1 ht2
  have := h2 t ht1 (by omega)
  exact ⟨this.1, this.2.2⟩

theorem firstFitAux_sound (mm : Nat → Bool) (ms size : Nat) :
    ∀ (fuel i : Nat), firstFitAux mm ms size fuel i ≠ -1 →
      FitSound mm ms size (firstFitAux mm ms size fuel i) := by
  intro fuel
  induction fuel with
  | zero => intro i h; simp [firstFitAux] at h
  | succ fuel ih =>
    intro i h
    simp only [firstFitAux] at h ⊢
    by_cases hi : i < ms
    · rw [if_pos hi] at h ⊢
      by_cases hf : mm i = false
      · rw [if_pos hf] at h ⊢
        by_cases he : runEnd mm ms (i + size) i = i + size
        · rw [if_pos he] at h ⊢
          exact run_gives_fit he
        · rw [if_neg he] at h ⊢
          exact ih _ h
      · rw [if_neg hf] at h ⊢
        exact ih _ h
    · rw [if_neg hi] at h
      exact absurd rfl h

theorem first_fit_sound (mm : Nat → Bool) (ms size : Nat)
    (h : first_fit mm ms size ≠ -1) : FitSound mm ms size (first_fit mm ms size) :=
  firstFitAux_sound mm ms size (ms + 1) 0 h

theorem nextFitAux_sound (mm : Nat → Bool) (ms size start0 : Nat) :
    ∀ (fuel i count : Nat), (nextFitAux mm ms size start0 fuel i count).1 ≠ -1 →
      FitSound mm ms size (nextFitAux mm ms size start0 fuel i count).1 := by
  intro fuel
  induction fuel with
  | zero => intro i count h; simp [nextFitAux] at h
  | succ fuel ih =>
    intro i count h
    simp only [nextFitAux] at h ⊢
    by_cases hcnt : count < ms
    · rw [if_pos hcnt] at h ⊢
      by_cases hf : mm i = false
      · rw [if_pos hf] at h ⊢
        by_cases he : runEnd mm ms (i + size) i = i + size
        · rw [if_pos he] at h ⊢
          exact run_gives_fit he
        · rw [if_neg he] at h ⊢
          exact ih _ _ h
      · rw [if_neg hf] at h ⊢
        exact ih _ _ h
    · rw [if_neg hcnt] at h
      exact absurd rfl h

theorem next_fit_sound (mm : Nat → Bool) (ms size start0 : Nat)
    (h : (next_fit mm ms size start0).1 ≠ -1) :
    FitSound mm ms size (next_fit mm ms size start0).1 :=
  nextFitAux_sound mm ms size start0 (ms + 1) start0 0 h

theorem bestFitAux_sound (mm : Nat → Bool) (ms size : Nat) :
    ∀ (fuel i min_size : Nat) (ind : Int),
      (ind ≠ -1 → FitSound mm ms size ind) →
      bestFitAux mm ms size fuel i min_size ind ≠ -1 →
      FitSound mm ms size (bestFitAux mm ms size fuel i min_size ind) := by
  intro fuel
  induction fuel with
  | zero => intro i min_size ind hacc h; simpa [bestFitAux] using hacc h
  | succ fuel ih =>
    intro i min_size ind hacc h
    simp only [bestFitAux] at h ⊢
    by_cases hi : i < ms
    · rw [if_pos hi] at h ⊢
      by_cases hf : mm i = false
      · rw [if_pos hf] at h ⊢
        by_cases hq : i + size ≤ runEnd mm ms ms i ∧ runEnd mm ms ms i - i ≤ min_size
        · rw [if_pos hq] at h ⊢
          refine ih _ _ _ (fun _ => ?_) h
          obtain ⟨h1, h2, h3⟩ := runEnd_spec mm ms ms i
          refine ⟨i, rfl, fun t ht1 ht2 => ?_⟩
          have := h2 t ht1 (by omega)
          exact ⟨this.1, this.2.2⟩
        · rw [if_neg hq] at h ⊢
          exact ih _ _ _ hacc h
      · rw [if_neg hf] at h ⊢
        exact ih _ _ _ hacc h
    · rw [if_neg hi] at h ⊢
      exact hacc h

theorem best_fit_sound (mm : Nat → Bool) (ms size : Nat)
    (h : best_fit mm ms size ≠ -1) : FitSound mm ms size (best_fit mm ms size) :=
  bestFitAux_sound mm ms size (ms + 1) 0 2147483647 (-1) (fun hc => absurd rfl hc) h

theorem worstFitAux_sound (mm : Nat → Bool) (ms size : Nat) :
    ∀ (fuel i max_size : Nat) (ind : Int),
      (ind ≠ -1 → FitSound mm ms size ind) →
      worstFitAux mm ms size fuel i max_size ind ≠ -1 →
      FitSound mm ms size (worstFitAux mm ms size fuel i max_size ind) := by
  intro fuel
  induction fuel with
  | zero => intro i max_size ind hacc h; simpa [worstFitAux] using hacc h
  | succ fuel ih =>
    intro i max_size ind hacc h
    simp only [worstFitAux] at h ⊢
    by_cases hi : i < ms
    · rw [if_pos hi] at h ⊢
      by_cases hf : mm i = false
      · rw [if_pos hf] at h ⊢
        by_cases hq : i + size ≤ runEnd mm ms ms i ∧ max_size < runEnd mm ms ms i - i
        · rw [if_pos hq] at h ⊢
          refine ih _ _ _ (fun _ => ?_) h
          obtain ⟨h1, h2, h3⟩ := runEnd_spec mm ms ms i
          refine ⟨i, rfl, fun t ht1 ht2 => ?_⟩
          have := h2 t ht1 (by omega)
          exact ⟨this.1, this.2.2⟩
        · rw [if_neg hq] at h ⊢
          exact ih _ _ _ hacc h
      · rw [if_neg hf] at h ⊢
        exact ih _ _ _ hacc h
    · rw [if_neg hi] at h ⊢
      exact hacc h

theorem worst_fit_sound (mm : Nat → Bool) (ms size : Nat)
    (h : worst_fit mm ms size ≠ -1) : FitSound mm ms size (worst_fit mm ms size) :=
  worstFitAux_sound mm ms size (ms + 1) 0 0 (-1) (fun hc => absurd rfl hc) h

/-- `get_index` only touches the next-fit cursor of the base state, and
a non-`-1` result is a sound fit. -/
theorem cGetIndex_sound (b : CBase) (size : Nat) :
    (cGetIndex b size).2.memory_size = b.memory_size ∧
    (cGetIndex b size).2.memory_map = b.memory_map ∧
    (cGetIndex b size).2.used_memory = b.used_memory ∧
    (cGetIndex b size).2.strategy = b.strategy ∧
    ((cGetIndex b size).1 ≠ -1 →
      FitSound b.memory_map b.memory_size size (cGetIndex b size).1) := by
  rcases b with ⟨ms, mm, si, um, strat⟩
  cases strat
  case FIRST_FIT => exact ⟨rfl, rfl, rfl, rfl, first_fit_sound _ _ _⟩
  case BEST_FIT => exact ⟨rfl, rfl, rfl, rfl, best_fit_sound _ _ _⟩
  case WORST_FIT => exact ⟨rfl, rfl, rfl, rfl, worst_fit_sound _ _ _⟩
  case NEXT_FIT => exact ⟨rfl, rfl, rfl, rfl, next_fit_sound _ _ _ _⟩

theorem optionBind_some {α β : Type} (a : α) (f : α → Option β) :
    (some a).bind f = f a := rfl

theorem optionMap_some {α β : Type} (a : α) (f : α → β) :
    (some a).map f = some (f a) := rfl

/-- Characterization of the availability scan of
`ContiguousFileSystem::write` when the scanned window is in range: it
stops at the first used block, or reports the full count. -/
theorem checkAvailAux_spec (ms : Nat) (mm : Nat → Bool) (endb : Nat) :
    ∀ (c avail : Nat), endb + avail + c ≤ ms →
      ∃ r, checkAvailAux ms mm endb c avail = some r ∧ avail ≤ r ∧ r ≤ avail + c ∧
        (∀ t, avail ≤ t → t < r → mm (t + endb) = false) ∧
        (r < avail + c → mm (r + endb) = true) := by
  intro c
  induction c with
  | zero =>
    intro avail h
    exact ⟨avail, rfl, Nat.le_refl _, by omega,
      fun t h1 h2 => absurd h2 (by omega), fun hc => absurd hc (by omega)⟩
  | succ c ih =>
    intro avail h
    have hin : avail + endb < ms := by omega
    have hget : bmGet ms mm (avail + endb) = some (mm (avail + endb)) := if_pos hin
    by_cases hv : mm (avail + endb) = true
    · refine ⟨avail, ?_, Nat.le_refl _, by omega, fun t h1 h2 => absurd h2 (by omega),
        fun _ => hv⟩
      simp only [checkAvailAux, hget, Option.bind]
      rw [if_pos hv]
    · obtain ⟨r, hr, hr1, hr2, hr3, hr4⟩ := ih (avail + 1) (by omega)
      refine ⟨r, ?_, by omega, by omega, ?_, fun hc => hr4 (by omega)⟩
      · simp only [checkAvailAux, hget, Option.bind]
        rw [if_neg hv]
        exact hr
      · intro t h1 h2
        rcases Nat.eq_or_lt_of_le h1 with rfl | h
        · simpa using hv
        · exact hr3 t h h2

/-- C3 (confirmed): a plain `ContiguousFileSystem::write` past the end
of an existing file succeeds exactly when the `size+offset-filesize`
blocks directly after the file's last block are all free, in which case
exactly those blocks become used and `filesize` grows by that amount;
otherwise it fails returning the sentinel `1` with the state untouched.
(The hypothesis `hbound` keeps the scanned window inside the bitset,
where the C++ behaviour is defined.) -/
theorem c3_contiguous_write_growth (s : CState) (f : CFile) (name : String) (size offset : Nat)
    (hf : fmFind s.file_map name = some f)
    (hgrow : f.filesize < size + offset)
    (hbound : f.start_block + (size + offset) ≤ s.base.memory_size) :
    ((∀ t, f.start_block + f.filesize ≤ t → t < f.start_block + (size + offset) →
        s.base.memory_map t = false) →
      cfsWrite s name size offset =
        some ({ base :=
                  { s.base with
                    memory_map := fun t =>
                      if f.start_block + f.filesize ≤ t ∧ t < f.start_block + (size + offset)
                      then true else s.base.memory_map t
                    used_memory := s.base.used_memory + (size + offset - f.filesize) },
                file_map := fmUpdate s.file_map name
                  (fun g => { g with filesize := g.filesize + (size + offset - f.filesize) }) },
              size + 1)) ∧
    ((∃ t, f.start_block + f.filesize ≤ t ∧ t < f.start_block + (size + offset) ∧
        s.base.memory_map t = true) →
      cfsWrite s name size offset = some (s, 1)) := by
  have hreq : f.start_block + f.filesize + (size + offset - f.filesize) =
      f.start_block + (size + offset) := by omega
  obtain ⟨r, hr, hr1, hr2, hr3, hr4⟩ := checkAvailAux_spec s.base.memory_size
    s.base.memory_map (f.start_block + f.filesize) (size + offset - f.filesize) 0 (by omega)
  constructor
  · intro hfree
    have hrfull : r = size + offset - f.filesize := by
      by_contra hne
      have hlt : r < 0 + (size + offset - f.filesize) := by omega
      have h1 := hr4 hlt
      have h2 := hfree (r + (f.start_block + f.filesize)) (by omega) (by omega)
      rw [h1] at h2
      exact Bool.noConfusion h2
    simp only [cfsWrite, hf, if_pos hgrow]
    rw [hr, hrfull, optionBind_some]
    rw [if_pos rfl]
    rw [writeRangeI_nat_eq s.base.memory_size true (size + offset - f.filesize)
      s.base.memory_map (f.start_block + f.filesize) (by omega)]
    rw [optionMap_some]
    have hmmeq : (fun t => if f.start_block + f.filesize ≤ t ∧
        t < f.start_block + f.filesize + (size + offset - f.filesize) then true
        else s.base.memory_map t) =
        (fun t => if f.start_block + f.filesize ≤ t ∧ t < f.start_block + (size + offset)
        then true else s.base.memory_map t) := by
      funext t
      rw [hreq]
    rw [hmmeq]
  · intro ⟨t, ht1, ht2, ht3⟩
    have hrne : ¬(r = size + offset - f.filesize) := by
      intro hrfull
      have := hr3 (t - (f.start_block + f.filesize)) (by omega) (by omega)
      rw [show t - (f.start_block + f.filesize) + (f.start_block + f.filesize) = t
        from by omega] at this
      rw [ht3] at this
      exact Bool.noConfusion this
    simp only [cfsWrite, hf, if_pos hgrow]
    rw [hr, optionBind_some]
    rw [if_neg hrne]

/-- C3 witness: on an 8-block first-fit allocator holding one file `a`
of 3 blocks at block 0, `write("a", 3, 2)` grows the file by 2 blocks
into the free blocks 3 and 4. -/
theorem c3_witness :
    fmFind [("a", (⟨3, 0⟩ : CFile))] "a" = some ⟨3, 0⟩ ∧
    3 < 3 + 2 ∧
    0 + (3 + 2) ≤ 8 ∧
    cfsWrite ⟨⟨8, fun t => decide (t < 3), 0, 3, .FIRST_FIT⟩, [("a", ⟨3, 0⟩)]⟩ "a" 3 2 =
      some (⟨⟨8, fun t => if 0 + 3 ≤ t ∧ t < 0 + (3 + 2) then true else decide (t < 3),
        0, 3 + (3 + 2 - 3), .FIRST_FIT⟩,
        fmUpdate [("a", ⟨3, 0⟩)] "a" (fun g => { g with filesize := g.filesize + (3 + 2 - 3) })⟩,
        3 + 1) := by
  refine ⟨rfl, by omega, by omega, ?_⟩
  exact (c3_contiguous_write_growth
    ⟨⟨8, fun t => decide (t < 3), 0, 3, .FIRST_FIT⟩, [("a", ⟨3, 0⟩)]⟩ ⟨3, 0⟩ "a" 3 2
    rfl (by decide) (by decide)).1
    (fun t h1 h2 => decide_eq_false (by
      have h1' : 0 + 3 ≤ t := h1
      omega))

/-- C1 (code bug): on a full 4-block modified-contiguous allocator, a
growing write whose hole search fails executes
`memory_map.set(i + index)` with `index = -1` **before** the
`index == -1` test; `bitset::set` throws `std::out_of_range`, so the
call never returns (model: `none`) instead of failing cleanly with the
state untouched. -/
theorem c1_mcfs_failed_growth_crashes :
    (mcfsCreate (mInit 4 .FIRST_FIT) "a" 4).isSome = true ∧
    (mcfsCreate (mInit 4 .FIRST_FIT) "a" 4).bind (fun s => mcfsWrite s "a" 1 4) = none :=
  ⟨rfl, rfl⟩

/-- C5 (code bug): with blocks 0,1,2,4 used in an 8-block map, the free
run starting at block 5 has length 3 ≥ 2, yet `first_fit(2)` returns
`-1`: the advance `i += j` (instead of `i = j`) jumps from the too-short
hole at 3 straight past blocks 4–6.  The spec's 10-block
create/create/delete/create scenario is nevertheless satisfied. -/
theorem c5_first_fit_misses_a_hole :
    first_fit (fun i => i == 0 || i == 1 || i == 2 || i == 4) 8 2 = -1 ∧
    (fun i : Nat => i == 0 || i == 1 || i == 2 || i == 4) 5 = false ∧
    (fun i : Nat => i == 0 || i == 1 || i == 2 || i == 4) 6 = false ∧
    (runOps cStep (cInit 10 .FIRST_FIT)
        [Op.create "a" 4, Op.create "b" 4, Op.delete "a", Op.create "c" 4]).bind
      (fun s => fmFind s.file_map "c") = some ⟨4, 0⟩ :=
  ⟨rfl, rfl, rfl, rfl⟩

/-- C6 (code bug): in an 8-block map with only block 0 used and the
cursor at 0, `next_fit(1)` allocates the run starting at `i = 1` but
sets the cursor to `(j + i) % N = (2 + 1) % 8 = 3` instead of just past
the run (`i + size = 2`). -/
theorem c6_next_fit_cursor_overshoots :
    next_fit (fun i => i == 0) 8 1 0 = (1, 3) ∧ (3 : Nat) ≠ 1 + 1 :=
  ⟨rfl, by omega⟩

/-- C7 (code bug): reading 1 block at offset 1 of a 3-block file visits
logical positions 0 and 1, so the loop's `block_access` is `1 + 2 = 3`,
but the method returns `size + 1 = 2` (the computed `block_access` is
dead). -/
theorem c7_read_reports_size_plus_one :
    (cfsCreate (cInit 8 .FIRST_FIT) "a" 3).map (fun s => cfsRead s "a" (some 1) 1) =
      some (2, 3) ∧ (2 : Nat) ≠ 3 :=
  ⟨rfl, by omega⟩

/-- C8 (code bug): `ModifiedContiguousFileSystem::write` on an absent
file returns `0`, not the sentinel `1` that denotes a non-executed
operation everywhere else. -/
theorem c8_mcfs_write_notfound_returns_zero :
    (mcfsWrite (mInit 4 .FIRST_FIT) "a" 1 0).map Prod.snd = some 0 ∧ (0 : Nat) ≠ 1 :=
  ⟨rfl, by omega⟩

/-! ### Round-trip lemmas (create; delete) -/

/-- Marking a free in-range run and then resetting it restores the
block map exactly. -/
theorem writeRange_roundtrip (ms : Nat) (mm : Nat → Bool) (a k : Nat)
    (hfree : ∀ t, a ≤ t → t < a + k → t < ms ∧ mm t = false) :
    ∃ mm₁, writeRangeI ms mm (a : Int) true k = some mm₁ ∧
      writeRangeI ms mm₁ (a : Int) false k = some mm := by
  rcases Nat.eq_zero_or_pos k with hk | hk
  · subst hk
    exact ⟨mm, rfl, rfl⟩
  · have hbound : a + k ≤ ms := by
      have := (hfree (a + k - 1) (by omega) (by omega)).1
      omega
    refine ⟨fun t => if a ≤ t ∧ t < a + k then true else mm t,
      writeRangeI_nat_eq ms true k mm a hbound, ?_⟩
    rw [writeRangeI_nat_eq ms false k _ a hbound]
    congr 1
    funext t
    by_cases ht : a ≤ t ∧ t < a + k
    · rw [if_pos ht, ((hfree t ht.1 ht.2).2).symm]
    · rw [if_neg ht, if_neg ht]

theorem popN_take_drop {α : Type} :
    ∀ (k : Nat) (l : List α), k ≤ l.length → popN k l = some (l.take k, l.drop k) := by
  intro k
  induction k with
  | zero => intro l _; rfl
  | succ k ih =>
    intro l hl
    cases l with
    | nil => simp at hl
    | cons x rest =>
      simp only [List.length_cons] at hl
      simp only [popN, ih rest (by omega), optionMap_some, List.take_succ_cons,
        List.drop_succ_cons]

/-- C9 (amended): `create(f,k)` followed by `delete(f)` restores the
BlockMap exactly for the contiguous and modified-contiguous allocators.
For the linked allocator the free queue is rotated by `max k 1` — one
id is dequeued even at `k = 0` — so the popped ids reappear at the tail
and order is not restored in general.  For the indexed allocator with
`1 ≤ k` the queue is rotated by `k`; at `k = 0` the create itself
crashes (its success log reads `block_indices[0]` of the empty index
table, out of bounds), so no round-trip exists. -/
theorem c9_amended :
    (∀ (s : CState) (name : String) (k : Nat),
      fmFind s.file_map name = none → (cGetIndex s.base k).1 ≠ -1 →
      ∃ s₁ s₂, cfsCreate s name k = some s₁ ∧ cfsDelete s₁ name = some s₂ ∧
        s₂.base.memory_map = s.base.memory_map) ∧
    (∀ (s : MState) (name : String) (k : Nat),
      fmFind s.file_map name = none → (cGetIndex s.base k).1 ≠ -1 →
      ∃ s₁ s₂, mcfsCreate s name k = some s₁ ∧ mcfsDelete s₁ name = some s₂ ∧
        s₂.base.memory_map = s.base.memory_map) ∧
    (∀ (s : LState) (name : String) (k : Nat),
      fmFind s.file_map name = none → max k 1 ≤ s.free_list.length →
      ∃ s₁ s₂, lfsCreate s name k = some s₁ ∧ lfsDelete s₁ name = some s₂ ∧
        s₂.free_list = s.free_list.drop (max k 1) ++ s.free_list.take (max k 1)) ∧
    (∀ (s : IState) (name : String) (k : Nat),
      fmFind s.file_map name = none → 1 ≤ k → k ≤ s.free_list.length →
      ∃ s₁ s₂, ifsCreate s name k = some s₁ ∧ ifsDelete s₁ name = some s₂ ∧
        s₂.free_list = s.free_list.drop k ++ s.free_list.take k) ∧
    (∀ (s : IState) (name : String),
      fmFind s.file_map name = none → ifsCreate s name 0 = none) := by
  refine ⟨?_, ?_, ?_, ?_, ?_⟩
  · intro s name k hf hr
    obtain ⟨hms, hmm, hum, hst, hsound⟩ := cGetIndex_sound s.base k
    obtain ⟨a, ha, hrun⟩ := hsound hr
    obtain ⟨mm₁, hw1, hw2⟩ := writeRange_roundtrip s.base.memory_size s.base.memory_map a k hrun
    have hcreate : cfsCreate s name k =
        some ⟨{ (cGetIndex s.base k).2 with
                memory_map := mm₁
                used_memory := (cGetIndex s.base k).2.used_memory + k },
          fmInsert s.file_map name ⟨k, a⟩⟩ := by
      simp only [cfsCreate, hf, Option.isSome_none, Bool.false_eq_true, if_false]
      rw [if_neg hr, hms, hmm, ha]
      rw [show ((a : Int)).toNat = a from Int.toNat_natCast a]
      rw [hw1, optionMap_some]
    have hfind : fmFind (fmInsert s.file_map name (⟨k, a⟩ : CFile)) name = some ⟨k, a⟩ :=
      fmFind_insert_self s.file_map name _ hf
    refine ⟨_, ⟨{ (cGetIndex s.base k).2 with
        memory_map := s.base.memory_map
        used_memory := (cGetIndex s.base k).2.used_memory + k - k },
      fmErase (fmInsert s.file_map name ⟨k, a⟩) name⟩, hcreate, ?_, rfl⟩
    simp only [cfsDelete, hfind]
    rw [show ({ (cGetIndex s.base k).2 with
          memory_map := mm₁
          used_memory := (cGetIndex s.base k).2.used_memory + k } : CBase).memory_size =
      s.base.memory_size from hms]
    rw [hw2, optionMap_some]
  · intro s name k hf hr
    obtain ⟨hms, hmm, hum, hst, hsound⟩ := cGetIndex_sound s.base k
    obtain ⟨a, ha, hrun⟩ := hsound hr
    obtain ⟨mm₁, hw1, hw2⟩ := writeRange_roundtrip s.base.memory_size s.base.memory_map a k hrun
    have hcreate : mcfsCreate s name k =
        some ⟨{ (cGetIndex s.base k).2 with
                memory_map := mm₁
                used_memory := (cGetIndex s.base k).2.used_memory + k },
          fmInsert s.file_map name ⟨k, [⟨a, k⟩]⟩⟩ := by
      simp only [mcfsCreate, hf, Option.isSome_none, Bool.false_eq_true, if_false]
      rw [if_neg hr, hms, hmm, ha]
      rw [show ((a : Int)).toNat = a from Int.toNat_natCast a]
      rw [hw1, optionMap_some]
    have hfind : fmFind (fmInsert s.file_map name (⟨k, [⟨a, k⟩]⟩ : MFile)) name =
        some ⟨k, [⟨a, k⟩]⟩ :=
      fmFind_insert_self s.file_map name _ hf
    have hreset : resetChain s.base.memory_size mm₁ [⟨a, k⟩] = some s.base.memory_map := by
      simp only [resetChain]
      rw [hw2, optionBind_some]
    refine ⟨_, ⟨{ (cGetIndex s.base k).2 with
        memory_map := s.base.memory_map
        used_memory := (cGetIndex s.base k).2.used_memory + k - k },
      fmErase (fmInsert s.file_map name ⟨k, [⟨a, k⟩]⟩) name⟩, hcreate, ?_, rfl⟩
    simp only [mcfsDelete, hfind]
    rw [show ({ (cGetIndex s.base k).2 with
          memory_map := mm₁
          used_memory := (cGetIndex s.base k).2.used_memory + k } : CBase).memory_size =
      s.base.memory_size from hms]
    rw [hreset, optionMap_some]
  · intro s name k hf hk
    have hguard : ¬s.free_list.length < k := by omega
    cases hfl : s.free_list with
    | nil =>
      rw [hfl] at hk
      simp only [List.length_nil] at hk
      omega
    | cons b rest =>
      have hrest : k - 1 ≤ rest.length := by
        rw [hfl] at hk
        simp only [List.length_cons] at hk
        omega
      have hpop := popN_take_drop (k - 1) rest hrest
      have hcreate : lfsCreate s name k =
          some { s with
                 free_list := rest.drop (k - 1)
                 file_map := fmInsert s.file_map name ⟨k, b :: rest.take (k - 1)⟩
                 used_memory := s.used_memory + k } := by
        simp only [lfsCreate, hf, Option.isSome_none, Bool.false_eq_true, if_false]
        rw [if_neg hguard, hfl]
        simp only [hpop, optionMap_some]
      have hfind : fmFind (fmInsert s.file_map name
          (⟨k, b :: rest.take (k - 1)⟩ : LFile)) name = some ⟨k, b :: rest.take (k - 1)⟩ :=
        fmFind_insert_self s.file_map name _ hf
      refine ⟨_, { s with
          free_list := rest.drop (k - 1) ++ (b :: rest.take (k - 1))
          file_map := fmErase (fmInsert s.file_map name ⟨k, b :: rest.take (k - 1)⟩) name
          used_memory := s.used_memory + k - k }, hcreate, ?_, ?_⟩
      · simp only [lfsDelete, hfind]
      · have hmax : max k 1 = (k - 1) + 1 := by omega
        rw [hmax, List.drop_succ_cons, List.take_succ_cons]
  · intro s name k hf hk1 hk
    have hguard : ¬s.free_list.length < k := by omega
    have hpop := popN_take_drop k s.free_list hk
    have htake : ¬(s.free_list.take k = []) := by
      intro hcon
      have hlen := congrArg List.length hcon
      rw [List.length_take] at hlen
      simp only [List.length_nil] at hlen
      omega
    have hcreate : ifsCreate s name k =
        some { s with
               free_list := s.free_list.drop k
               used_memory := s.used_memory + k
               file_map := fmInsert s.file_map name ⟨k, s.free_list.take k⟩ } := by
      simp only [ifsCreate, hf, Option.isSome_none, Bool.false_eq_true, if_false]
      rw [if_neg hguard, hpop, optionBind_some]
      rw [if_neg htake]
    have hfind : fmFind (fmInsert s.file_map name
        (⟨k, s.free_list.take k⟩ : IFile)) name = some ⟨k, s.free_list.take k⟩ :=
      fmFind_insert_self s.file_map name _ hf
    refine ⟨_, { s with
        free_list := s.free_list.drop k ++ s.free_list.take k
        file_map := fmErase (fmInsert s.file_map name ⟨k, s.free_list.take k⟩) name
        used_memory := s.used_memory + k - k }, hcreate, ?_, rfl⟩
    simp only [ifsDelete, hfind]
  · intro s name hf
    simp only [ifsCreate, hf, Option.isSome_none, Bool.false_eq_true, if_false]
    rfl

/-- C9 counterexample: on `LinkedFileSystem<2>` (free queue `[0, 1]`),
`create("a", 1); delete_file("a")` leaves the free queue `[1, 0]` — the
same ids but not the original order the claim requires. -/
theorem c9_counterexample :
    (lInit 2).free_list = [0, 1] ∧
    (lfsCreate (lInit 2) "a" 1).bind (fun s => lfsDelete s "a") =
      some ⟨2, [1, 0], [], 0⟩ ∧
    ([1, 0] : List Nat) ≠ [0, 1] :=
  ⟨rfl, rfl, by decide⟩

/-- C9 witness: the round-trip on 2-block instances of all four
allocators with `k = 1`, the linked round-trip at `k = 0` (still a
rotation by one), and the indexed create crash at `k = 0`. -/
theorem c9_witness :
    (fmFind (cInit 2 .FIRST_FIT).file_map "a" = none ∧
     (cGetIndex (cInit 2 .FIRST_FIT).base 1).1 ≠ -1 ∧
     ∃ s₁ s₂, cfsCreate (cInit 2 .FIRST_FIT) "a" 1 = some s₁ ∧
       cfsDelete s₁ "a" = some s₂ ∧
       s₂.base.memory_map = (cInit 2 .FIRST_FIT).base.memory_map) ∧
    (fmFind (mInit 2 .FIRST_FIT).file_map "a" = none ∧
     (cGetIndex (mInit 2 .FIRST_FIT).base 1).1 ≠ -1 ∧
     ∃ s₁ s₂, mcfsCreate (mInit 2 .FIRST_FIT) "a" 1 = some s₁ ∧
       mcfsDelete s₁ "a" = some s₂ ∧
       s₂.base.memory_map = (mInit 2 .FIRST_FIT).base.memory_map) ∧
    (fmFind (lInit 2).file_map "a" = none ∧ max 1 1 ≤ (lInit 2).free_list.length ∧
     ∃ s₁ s₂, lfsCreate (lInit 2) "a" 1 = some s₁ ∧ lfsDelete s₁ "a" = some s₂ ∧
       s₂.free_list =
         (lInit 2).free_list.drop (max 1 1) ++ (lInit 2).free_list.take (max 1 1)) ∧
    (fmFind (lInit 2).file_map "b" = none ∧ max 0 1 ≤ (lInit 2).free_list.length ∧
     ∃ s₁ s₂, lfsCreate (lInit 2) "b" 0 = some s₁ ∧ lfsDelete s₁ "b" = some s₂ ∧
       s₂.free_list =
         (lInit 2).free_list.drop (max 0 1) ++ (lInit 2).free_list.take (max 0 1)) ∧
    (fmFind (iInit 2).file_map "a" = none ∧ 1 ≤ 1 ∧ 1 ≤ (iInit 2).free_list.length ∧
     ∃ s₁ s₂, ifsCreate (iInit 2) "a" 1 = some s₁ ∧ ifsDelete s₁ "a" = some s₂ ∧
       s₂.free_list = (iInit 2).free_list.drop 1 ++ (iInit 2).free_list.take 1) ∧
    (fmFind (iInit 2).file_map "c" = none ∧ ifsCreate (iInit 2) "c" 0 = none) :=
  ⟨⟨rfl, by decide, c9_amended.1 (cInit 2 .FIRST_FIT) "a" 1 rfl (by decide)⟩,
   ⟨rfl, by decide, c9_amended.2.1 (mInit 2 .FIRST_FIT) "a" 1 rfl (by decide)⟩,
   ⟨rfl, by decide, c9_amended.2.2.1 (lInit 2) "a" 1 rfl (by decide)⟩,
   ⟨rfl, by decide, c9_amended.2.2.1 (lInit 2) "b" 0 rfl (by decide)⟩,
   ⟨rfl, by decide, by decide, c9_amended.2.2.2.1 (iInit 2) "a" 1 rfl (by decide) (by decide)⟩,
   ⟨rfl, c9_amended.2.2.2.2 (iInit 2) "c" rfl⟩⟩

/-! ### Indexed write: in-bounds table accesses -/

/-- The indexed write loop completes (never reaches the out-of-bounds
`vector::operator[]` branch and never pops an empty free list) whenever
it starts at a position within the table and the total span fits in
table plus free list. -/
theorem iWriteLoop_isSome :
    ∀ (r : Nat) (free tbl : List Nat) (fs used bno ba : Nat),
      bno ≤ tbl.length → bno + r ≤ tbl.length + free.length →
      (iWriteLoop r free tbl fs used bno ba).isSome := by
  intro r
  induction r with
  | zero => intro free tbl fs used bno ba _ _; rfl
  | succ r ih =>
    intro free tbl fs used bno ba h1 h2
    simp only [iWriteLoop]
    by_cases h : tbl.length ≤ bno
    · have hb : bno = tbl.length := by omega
      cases free with
      | nil => simp at h2; omega
      | cons nb free' =>
        rw [if_pos h]
        have hlt : bno < (tbl ++ [nb]).length := by
          simp only [List.length_append, List.length_cons, List.length_nil]
          omega
        show (if bno < (tbl ++ [nb]).length then
          iWriteLoop r free' (tbl ++ [nb]) (fs + 1) (used + 1) (bno + 1) (ba + 1)
          else none).isSome = true
        rw [if_pos hlt]
        apply ih
        · simp only [List.length_append, List.length_cons, List.length_nil]
          omega
        · simp only [List.length_append, List.length_cons, List.length_nil] at *
          omega
    · rw [if_neg h]
      exact ih free tbl fs used (bno + 1) (ba + 1) (by omega) (by omega)

/-- C10 (confirmed): an `IndexedFileSystem::write` on an existing file
whose index table matches its size completes without any out-of-bounds
index-table access whenever `offset ≤ filesize` — the free-space guard
plus the interleaved push-then-access pattern keep `bno` strictly below
the table's current length at every access. -/
theorem c10_indexed_write_inbounds (s : IState) (f : IFile) (name : String)
    (size offset : Nat)
    (hf : fmFind s.file_map name = some f)
    (hlen : f.block_indices.length = f.filesize)
    (hoff : offset ≤ f.filesize) :
    (ifsWrite s name size offset).isSome := by
  simp only [ifsWrite, hf]
  by_cases hg : f.filesize < offset + size ∧ s.free_list.length < offset + size - f.filesize
  · rw [if_pos hg]
    rfl
  · rw [if_neg hg]
    have hloop : (iWriteLoop size s.free_list f.block_indices f.filesize s.used_memory
        offset 1).isSome := by
      apply iWriteLoop_isSome
      · omega
      · rcases Nat.lt_or_ge f.filesize (offset + size) with hc | hc
        · have : ¬s.free_list.length < offset + size - f.filesize := fun hb => hg ⟨hc, hb⟩
          omega
        · omega
    obtain ⟨y, hy⟩ := Option.isSome_iff_exists.mp hloop
    rw [hy]
    rfl

/-- C10 witness: file `a` of 2 blocks (table `[0, 1]`) on a 5-block
indexed allocator, written with `size = 3`, `offset = 1`. -/
theorem c10_witness :
    fmFind [("a", (⟨2, [0, 1]⟩ : IFile))] "a" = some ⟨2, [0, 1]⟩ ∧
    ([0, 1] : List Nat).length = 2 ∧
    1 ≤ 2 ∧
    (ifsWrite ⟨5, [2, 3, 4], [("a", ⟨2, [0, 1]⟩)], 2⟩ "a" 3 1).isSome :=
  ⟨rfl, rfl, by omega,
    c10_indexed_write_inbounds ⟨5, [2, 3, 4], [("a", ⟨2, [0, 1]⟩)], 2⟩ ⟨2, [0, 1]⟩ "a" 3 1
      rfl rfl (by decide)⟩

/-! ### Best-fit characterization -/

/-- `i` starts a maximal free run (a hole) of the block map. -/
def IsHoleStart (mm : Nat → Bool) (ms i : Nat) : Prop :=
  i < ms ∧ mm i = false ∧ (i = 0 ∨ mm (i - 1) = true)

instance (mm : Nat → Bool) (ms i : Nat) : Decidable (IsHoleStart mm ms i) := by
  unfold IsHoleStart
  infer_instance

/-- Length of the maximal free run starting at `i` (as the scan code
measures it: `runEnd` is the `j` of the inner loop with no size cap). -/
def holeLen (mm : Nat → Bool) (ms i : Nat) : Nat :=
  runEnd mm ms ms i - i

/-- Loop invariant and postcondition of the best-fit scan: the
accumulator is the best-so-far with ties resolved towards the **later**
run, and the final answer is optimal over every hole. -/
theorem bestFitAux_char (mm : Nat → Bool) (ms size : Nat) (hms : ms ≤ 2147483647) :
    ∀ (fuel i min_size : Nat) (ind : Int),
      ms ≤ i + fuel →
      (i < ms → mm i = false → (i = 0 ∨ (0 < i ∧ mm (i - 1) = true))) →
      ((ind = -1 ∧ min_size = 2147483647 ∧
        ∀ p, p < i → ¬(IsHoleStart mm ms p ∧ size ≤ holeLen mm ms p)) ∨
       (∃ b : Nat, ind = (b : Int) ∧ b < i ∧ IsHoleStart mm ms b ∧
         size ≤ holeLen mm ms b ∧ holeLen mm ms b = min_size ∧
         ∀ p, p < i → IsHoleStart mm ms p → size ≤ holeLen mm ms p →
           min_size < holeLen mm ms p ∨ (holeLen mm ms p = min_size ∧ p ≤ b))) →
      ((bestFitAux mm ms size fuel i min_size ind = -1 ∧
        ∀ p, ¬(IsHoleStart mm ms p ∧ size ≤ holeLen mm ms p)) ∨
       (∃ b : Nat, bestFitAux mm ms size fuel i min_size ind = (b : Int) ∧
         IsHoleStart mm ms b ∧ size ≤ holeLen mm ms b ∧
         ∀ p, IsHoleStart mm ms p → size ≤ holeLen mm ms p →
           holeLen mm ms b < holeLen mm ms p ∨
             (holeLen mm ms p = holeLen mm ms b ∧ p ≤ b))) := by
  intro fuel
  induction fuel with
  | zero =>
    intro i min_size ind hfuel halign hinv
    have hims : ms ≤ i := by omega
    simp only [bestFitAux]
    rcases hinv with ⟨h1, h2, h3⟩ | ⟨b, hb, hbi, hbs, hbl, hbm, hopt⟩
    · exact Or.inl ⟨h1, fun p hp => h3 p (by exact Nat.lt_of_lt_of_le hp.1.1 hims) hp⟩
    · exact Or.inr ⟨b, hb, hbs, hbl, fun p hp1 hp2 => by
        have := hopt p (Nat.lt_of_lt_of_le hp1.1 hims) hp1 hp2
        omega⟩
  | succ fuel ih =>
    intro i min_size ind hfuel halign hinv
    simp only [bestFitAux]
    by_cases hi : i < ms
    · rw [if_pos hi]
      by_cases hf : mm i = false
      · rw [if_pos hf]
        obtain ⟨hrge, hrfree, hrend⟩ := runEnd_spec mm ms ms i
        have hji : i < runEnd mm ms ms i := by
          rcases Nat.eq_or_lt_of_le hrge with he | hl
          · exfalso
            exact hrend (he ▸ ⟨hi, hi, hf⟩)
          · exact hl
        have hjms : runEnd mm ms ms i ≤ ms := by
          have := (hrfree (runEnd mm ms ms i - 1) (by omega) (by omega)).1
          omega
        have hstart : IsHoleStart mm ms i := by
          rcases halign hi hf with h0 | ⟨hpos, hpred⟩
          · exact ⟨hi, hf, Or.inl h0⟩
          · exact ⟨hi, hf, Or.inr hpred⟩
        have hleni : holeLen mm ms i = runEnd mm ms ms i - i := rfl
        have hnostart : ∀ p, i < p → p < runEnd mm ms ms i → ¬IsHoleStart mm ms p := by
          intro p hp1 hp2 hs
          rcases hs.2.2 with h0 | hpred
          · omega
          · have := (hrfree (p - 1) (by omega) (by omega)).2.2
            rw [this] at hpred
            exact Bool.noConfusion hpred
        have halign' : runEnd mm ms ms i < ms → mm (runEnd mm ms ms i) = false →
            (runEnd mm ms ms i = 0 ∨
              (0 < runEnd mm ms ms i ∧ mm (runEnd mm ms ms i - 1) = true)) := by
          intro hlt hfe
          exact absurd ⟨hlt, hlt, hfe⟩ hrend
        by_cases hq : i + size ≤ runEnd mm ms ms i ∧ runEnd mm ms ms i - i ≤ min_size
        · rw [if_pos hq]
          apply ih (runEnd mm ms ms i) (runEnd mm ms ms i - i) (i : Int) (by omega) halign'
          refine Or.inr ⟨i, rfl, hji, hstart, by omega, by omega, ?_⟩
          intro p hpj hps hpl
          rcases Nat.lt_trichotomy p i with hpi | hpeq | hpi
          · rcases hinv with ⟨h1, h2, h3⟩ | ⟨b, hb, hbi, hbs, hbl, hbm, hopt⟩
            · exact absurd ⟨hps, hpl⟩ (h3 p hpi)
            · have := hopt p hpi hps hpl
              omega
          · refine Or.inr ⟨?_, by omega⟩
            rw [hpeq]
            exact hleni
          · exact absurd hps (hnostart p hpi hpj)
        · rw [if_neg hq]
          apply ih (runEnd mm ms ms i) min_size ind (by omega) halign'
          rcases hinv with ⟨h1, h2, h3⟩ | ⟨b, hb, hbi, hbs, hbl, hbm, hopt⟩
          · refine Or.inl ⟨h1, h2, ?_⟩
            intro p hpj hpQ
            rcases Nat.lt_trichotomy p i with hpi | hpeq | hpi
            · exact h3 p hpi hpQ
            · apply hq
              have hps := hpQ.2
              rw [hpeq, hleni] at hps
              refine ⟨by omega, ?_⟩
              rw [h2]
              omega
            · exact hnostart p hpi hpj hpQ.1
          · refine Or.inr ⟨b, hb, by omega, hbs, hbl, hbm, ?_⟩
            intro p hpj hps hpl
            rcases Nat.lt_trichotomy p i with hpi | hpeq | hpi
            · exact hopt p hpi hps hpl
            · rw [hpeq] at hpl ⊢
              left
              rw [hleni] at hpl ⊢
              by_cases hc : runEnd mm ms ms i - i ≤ min_size
              · exact absurd ⟨by omega, hc⟩ hq
              · omega
            · exact absurd hps (hnostart p hpi hpj)
      · rw [if_neg hf]
        apply ih (i + 1) min_size ind (by omega)
        · intro _ _
          right
          refine ⟨by omega, ?_⟩
          rw [Nat.add_sub_cancel]
          cases hmi : mm i
          · exact absurd hmi hf
          · rfl
        · rcases hinv with ⟨h1, h2, h3⟩ | ⟨b, hb, hbi, hbs, hbl, hbm, hopt⟩
          · refine Or.inl ⟨h1, h2, ?_⟩
            intro p hp hc
            rcases Nat.lt_trichotomy p i with hpi | hpeq | hpi
            · exact h3 p hpi hc
            · have hmp := hc.1.2.1
              rw [hpeq] at hmp
              exact absurd hmp hf
            · omega
          · refine Or.inr ⟨b, hb, by omega, hbs, hbl, hbm, ?_⟩
            intro p hp hps hpl
            rcases Nat.lt_trichotomy p i with hpi | hpeq | hpi
            · exact hopt p hpi hps hpl
            · have hmp := hps.2.1
              rw [hpeq] at hmp
              exact absurd hmp hf
            · omega
    · rw [if_neg hi]
      have hims : ms ≤ i := by omega
      rcases hinv with ⟨h1, h2, h3⟩ | ⟨b, hb, hbi, hbs, hbl, hbm, hopt⟩
      · exact Or.inl ⟨h1, fun p hp => h3 p (Nat.lt_of_lt_of_le hp.1.1 hims) hp⟩
      · exact Or.inr ⟨b, hb, hbs, hbl, fun p hp1 hp2 => by
          have := hopt p (Nat.lt_of_lt_of_le hp1.1 hims) hp1 hp2
          omega⟩

/-- C4 (amended): when at least one hole of sufficient length exists,
`best_fit` returns the start of a hole of the smallest sufficient
length; among several equal-smallest holes it returns the
**latest**-starting one (the update test `j - i <= min_size` lets later
equal-length holes overwrite the stored index).  The bound
`ms ≤ INT_MAX` mirrors the C++ `int min_size = INT_MAX` sentinel. -/
theorem c4_amended (mm : Nat → Bool) (ms size : Nat) (hms : ms ≤ 2147483647)
    (hex : ∃ i, IsHoleStart mm ms i ∧ size ≤ holeLen mm ms i) :
    ∃ i : Nat, best_fit mm ms size = (i : Int) ∧
      IsHoleStart mm ms i ∧ size ≤ holeLen mm ms i ∧
      ∀ j, IsHoleStart mm ms j → size ≤ holeLen mm ms j →
        holeLen mm ms i < holeLen mm ms j ∨
          (holeLen mm ms j = holeLen mm ms i ∧ j ≤ i) := by
  have := bestFitAux_char mm ms size hms (ms + 1) 0 2147483647 (-1) (by omega)
    (fun _ _ => Or.inl rfl)
    (Or.inl ⟨rfl, rfl, fun p hp => absurd hp (Nat.not_lt_zero p)⟩)
  rcases this with ⟨_, hnone⟩ | ⟨b, hb, hbs, hbl, hopt⟩
  · obtain ⟨i, hi⟩ := hex
    exact absurd hi (hnone i)
  · exact ⟨b, hb, hbs, hbl, hopt⟩

/-- C4 counterexample: blocks 1 and 3 used in a 4-block map leave two
holes of length 1 (at 0 and at 2); requesting size 1, `best_fit`
returns 2 — the **latest** equal-smallest hole — while the claim
requires the earliest (0). -/
theorem c4_counterexample :
    best_fit (fun i => i == 1 || i == 3) 4 1 = 2 ∧
    IsHoleStart (fun i => i == 1 || i == 3) 4 0 ∧
    holeLen (fun i => i == 1 || i == 3) 4 0 = 1 ∧
    IsHoleStart (fun i => i == 1 || i == 3) 4 2 ∧
    holeLen (fun i => i == 1 || i == 3) 4 2 = 1 ∧
    (2 : Int) ≠ 0 := by
  refine ⟨rfl, by decide, rfl, by decide, rfl, by decide⟩

/-- C4 witness: the amended claim applied to that same map. -/
theorem c4_witness :
    (4 : Nat) ≤ 2147483647 ∧
    (IsHoleStart (fun i => i == 1 || i == 3) 4 0 ∧
      1 ≤ holeLen (fun i => i == 1 || i == 3) 4 0) ∧
    ∃ i : Nat, best_fit (fun i => i == 1 || i == 3) 4 1 = (i : Int) ∧
      IsHoleStart (fun i => i == 1 || i == 3) 4 i ∧
      1 ≤ holeLen (fun i => i == 1 || i == 3) 4 i ∧
      ∀ j, IsHoleStart (fun i => i == 1 || i == 3) 4 j →
        1 ≤ holeLen (fun i => i == 1 || i == 3) 4 j →
        holeLen (fun i => i == 1 || i == 3) 4 i < holeLen (fun i => i == 1 || i == 3) 4 j ∨
          (holeLen (fun i => i == 1 || i == 3) 4 j = holeLen (fun i => i == 1 || i == 3) 4 i ∧
            j ≤ i) :=
  ⟨by omega, ⟨by decide, by decide⟩,
    c4_amended (fun i => i == 1 || i == 3) 4 1 (by omega) ⟨0, by decide, by decide⟩⟩

/-! ### The space-accounting invariant (C2) -/

theorem writeRangeI_char (ms : Nat) (v : Bool) (k : Nat) (mm : Nat → Bool) (a : Nat)
    (h : k = 0 ∨ a + k ≤ ms) :
    writeRangeI ms mm (a : Int) v k =
      some (fun t => if a ≤ t ∧ t < a + k then v else mm t) := by
  rcases h with rfl | h
  · simp only [writeRangeI]
    congr 1
    funext t
    rw [if_neg (by omega)]
  · exact writeRangeI_nat_eq ms v k mm a h

/-- The blocks of a contiguous file. -/
def CFile.blocks (f : CFile) : Finset Nat :=
  Finset.Ico f.start_block (f.start_block + f.filesize)

/-- The blocks of one modified-contiguous run. -/
def MRun.blocks (r : MRun) : Finset Nat :=
  Finset.Ico r.start_block (r.start_block + r.size)

/-- A partition argument: if the set bits of the map are exactly the
union of a pairwise-disjoint in-range list of block sets, the popcount
is the sum of their cardinalities. -/
theorem popcount_partition (ms : Nat) :
    ∀ (L : List (Finset Nat)) (mm : Nat → Bool),
      (∀ t ∈ L, t ⊆ Finset.range ms) →
      L.Pairwise Disjoint →
      (∀ b, mm b = true ↔ ∃ t ∈ L, b ∈ t) →
      popcount ms mm = (L.map Finset.card).sum := by
  intro L
  induction L with
  | nil =>
    intro mm _ _ hiff
    simp only [List.map_nil, List.sum_nil, popcount]
    rw [Finset.card_eq_zero, Finset.filter_eq_empty_iff]
    intro b _
    intro hb
    obtain ⟨t, ht, _⟩ := (hiff b).1 hb
    exact absurd ht (List.not_mem_nil t)
  | cons t L' ih =>
    intro mm hsub hdis hiff
    have hdish : ∀ u ∈ L', Disjoint t u := fun u hu => (List.pairwise_cons.mp hdis).1 u hu
    have hdis' : L'.Pairwise Disjoint := (List.pairwise_cons.mp hdis).2
    have hmm' : ∀ b, (mm b && !(decide (b ∈ t))) = true ↔ ∃ u ∈ L', b ∈ u := by
      intro b
      simp only [Bool.and_eq_true, Bool.not_eq_true', decide_eq_false_iff_not]
      constructor
      · intro ⟨hb, hbt⟩
        obtain ⟨u, hu, hbu⟩ := (hiff b).1 hb
        rcases List.mem_cons.mp hu with rfl | hu'
        · exact absurd hbu hbt
        · exact ⟨u, hu', hbu⟩
      · intro ⟨u, hu, hbu⟩
        refine ⟨(hiff b).2 ⟨u, List.mem_cons_of_mem t hu, hbu⟩, ?_⟩
        intro hbt
        exact (Finset.disjoint_left.mp (hdish u hu)) hbt hbu
    have hsplit : (Finset.range ms).filter (fun b => mm b = true) =
        t ∪ (Finset.range ms).filter (fun b => (mm b && !(decide (b ∈ t))) = true) := by
      apply Finset.ext
      intro b
      simp only [Finset.mem_filter, Finset.mem_union, Finset.mem_range, Bool.and_eq_true,
        Bool.not_eq_true', decide_eq_false_iff_not]
      constructor
      · intro ⟨hbms, hb⟩
        by_cases hbt : b ∈ t
        · exact Or.inl hbt
        · exact Or.inr ⟨hbms, hb, hbt⟩
      · rintro (hbt | ⟨hbms, hb, _⟩)
        · have hbms := Finset.mem_range.mp (hsub t (List.mem_cons_self t L') hbt)
          exact ⟨hbms, (hiff b).2 ⟨t, List.mem_cons_self t L', hbt⟩⟩
        · exact ⟨hbms, hb⟩
    have hdisu : Disjoint t
        ((Finset.range ms).filter (fun b => (mm b && !(decide (b ∈ t))) = true)) := by
      rw [Finset.disjoint_right]
      intro b hb
      simp only [Finset.mem_filter, Bool.and_eq_true, Bool.not_eq_true',
        decide_eq_false_iff_not] at hb
      exact hb.2.2
    simp only [popcount] at *
    rw [hsplit, Finset.card_union_of_disjoint hdisu, List.map_cons, List.sum_cons]
    congr 1
    exact ih (fun b => mm b && !(decide (b ∈ t)))
      (fun u hu => hsub u (List.mem_cons_of_mem t hu)) hdis' hmm'

/-- Full well-formedness of a `ContiguousFileSystem` state: unique
names, in-range runs, pairwise-disjoint runs, and the block map marks
exactly the files' blocks. -/
def cfsInv (s : CState) : Prop :=
  (s.file_map.map Prod.fst).Nodup ∧
  (∀ p ∈ s.file_map, (p.2 : CFile).blocks ⊆ Finset.range s.base.memory_size) ∧
  s.file_map.Pairwise (fun p q => Disjoint p.2.blocks q.2.blocks) ∧
  (∀ bk, s.base.memory_map bk = true ↔ ∃ p ∈ s.file_map, bk ∈ p.2.blocks)

theorem cfsInv_popcount (s : CState) (h : cfsInv s) :
    popcount s.base.memory_size s.base.memory_map = sumSizes CFile.filesize s.file_map := by
  obtain ⟨hnd, hsub, hdis, hiff⟩ := h
  rw [popcount_partition s.base.memory_size (s.file_map.map (fun p => p.2.blocks))
    s.base.memory_map]
  · rw [List.map_map]
    unfold sumSizes
    congr 1
    apply List.map_congr_left
    intro p _
    simp only [Function.comp_apply, CFile.blocks, Nat.card_Ico, Nat.add_sub_cancel_left]
  · intro u hu
    obtain ⟨p, hp, rfl⟩ := List.mem_map.mp hu
    exact hsub p hp
  · exact (List.pairwise_map).mpr hdis
  · intro b
    rw [hiff b]
    constructor
    · intro ⟨p, hp, hbp⟩
      exact ⟨p.2.blocks, List.mem_map.mpr ⟨p, hp, rfl⟩, hbp⟩
    · intro ⟨u, hu, hbu⟩
      obtain ⟨p, hp, rfl⟩ := List.mem_map.mp hu
      exact ⟨p, hp, hbu⟩

theorem fmInsert_keys_nodup {α : Type} (l : List (String × α)) (n : String) (v : α)
    (hn : (l.map Prod.fst).Nodup) (hf : fmFind l n = none) :
    ((fmInsert l n v).map Prod.fst).Nodup := by
  unfold fmInsert
  rw [List.map_append]
  simp only [List.map_cons, List.map_nil]
  rw [List.nodup_append]
  refine ⟨hn, List.nodup_singleton n, ?_⟩
  intro a ha hb
  simp only [List.mem_singleton] at hb
  exact (fmFind_eq_none l n).mp hf (hb ▸ ha)

theorem fmErase_keys_nodup {α : Type} (l : List (String × α)) (n : String)
    (hn : (l.map Prod.fst).Nodup) : ((fmErase l n).map Prod.fst).Nodup :=
  ((List.filter_sublist l).map Prod.fst).nodup hn

theorem fmUpdate_keys {α : Type} (l : List (String × α)) (n : String) (g : α → α) :
    (fmUpdate l n g).map Prod.fst = l.map Prod.fst := by
  unfold fmUpdate
  rw [List.map_map]
  apply List.map_congr_left
  intro p _
  by_cases hp : p.1 = n
  · simp [hp]
  · simp [hp]

theorem nodupKeys_split {α : Type} (l1 l2 : List (String × α)) (n : String) (v : α)
    (h : (((l1 ++ (n, v) :: l2)).map Prod.fst).Nodup) :
    n ∉ l1.map Prod.fst ∧ n ∉ l2.map Prod.fst := by
  rw [List.map_append, List.map_cons, List.nodup_append] at h
  obtain ⟨h1, h2, h3⟩ := h
  constructor
  · intro hc
    exact h3 hc (List.mem_cons_self n _)
  · exact (List.nodup_cons.mp h2).1

theorem sumSizes_split {α : Type} (fsOf : α → Nat) (l1 l2 : List (String × α))
    (n : String) (v : α) :
    sumSizes fsOf (l1 ++ (n, v) :: l2) = sumSizes fsOf l1 + fsOf v + sumSizes fsOf l2 := by
  unfold sumSizes
  rw [List.map_append, List.sum_append, List.map_cons, List.sum_cons]
  rw [← Nat.add_assoc]

theorem cfsInv_transport (s s' : CState) (h1 : s'.base.memory_size = s.base.memory_size)
    (h2 : s'.base.memory_map = s.base.memory_map) (h3 : s'.file_map = s.file_map)
    (h : cfsInv s) : cfsInv s' := by
  unfold cfsInv at *
  rw [h1, h2, h3]
  exact h

theorem cfsCreate_inv (s : CState) (n : String) (k : Nat) (s' : CState)
    (hinv : cfsInv s) (h : cfsCreate s n k = some s') : cfsInv s' := by
  unfold cfsCreate at h
  by_cases hdup : (fmFind s.file_map n).isSome
  · rw [if_pos hdup] at h
    obtain rfl : s = s' := by injection h
    exact hinv
  · rw [if_neg hdup] at h
    have hfnone : fmFind s.file_map n = none := Option.not_isSome_iff_eq_none.mp hdup
    obtain ⟨hms, hmm, hum, hst, hsound⟩ := cGetIndex_sound s.base k
    by_cases hr : (cGetIndex s.base k).1 = -1
    · rw [if_pos hr] at h
      obtain rfl : ({ s with base := (cGetIndex s.base k).2 } : CState) = s' := by injection h
      exact cfsInv_transport s _ hms hmm rfl hinv
    · rw [if_neg hr] at h
      obtain ⟨a, ha, hrun⟩ := hsound hr
      have hbound : k = 0 ∨ a + k ≤ s.base.memory_size := by
        rcases Nat.eq_zero_or_pos k with hk | hk
        · exact Or.inl hk
        · right
          have := (hrun (a + k - 1) (by omega) (by omega)).1
          omega
      rw [hms, hmm, ha] at h
      rw [show ((a : Int)).toNat = a from Int.toNat_natCast a] at h
      rw [writeRangeI_char s.base.memory_size true k s.base.memory_map a hbound,
        optionMap_some] at h
      obtain rfl : (⟨{ (cGetIndex s.base k).2 with
          memory_map := (fun t => if a ≤ t ∧ t < a + k then true else s.base.memory_map t)
          used_memory := (cGetIndex s.base k).2.used_memory + k },
        fmInsert s.file_map n ⟨k, a⟩⟩ : CState) = s' := by injection h
      obtain ⟨h1, h2, h3, h4⟩ := hinv
      have hfree : ∀ t, t ∈ (⟨k, a⟩ : CFile).blocks → s.base.memory_map t = false := by
        intro t ht
        rw [CFile.blocks, Finset.mem_Ico] at ht
        exact (hrun t ht.1 ht.2).2
      have hnotowned : ∀ p ∈ s.file_map, Disjoint p.2.blocks (⟨k, a⟩ : CFile).blocks := by
        intro p hp
        rw [Finset.disjoint_right]
        intro t ht hpt
        have hmt := (h4 t).2 ⟨p, hp, hpt⟩
        rw [hfree t ht] at hmt
        exact Bool.noConfusion hmt
      refine ⟨?_, ?_, ?_, ?_⟩
      · exact fmInsert_keys_nodup s.file_map n _ h1 hfnone
      · show ∀ p ∈ fmInsert s.file_map n (⟨k, a⟩ : CFile),
          p.2.blocks ⊆ Finset.range (cGetIndex s.base k).2.memory_size
        rw [hms]
        intro p hp
        rcases List.mem_append.mp hp with hp | hp
        · exact h2 p hp
        · simp only [List.mem_singleton] at hp
          subst hp
          intro t ht
          rw [CFile.blocks, Finset.mem_Ico] at ht
          exact Finset.mem_range.mpr (hrun t ht.1 ht.2).1
      · show (fmInsert s.file_map n (⟨k, a⟩ : CFile)).Pairwise
          (fun p q => Disjoint p.2.blocks q.2.blocks)
        unfold fmInsert
        rw [List.pairwise_append]
        refine ⟨h3, List.pairwise_singleton _ _, ?_⟩
        intro p hp q hq
        simp only [List.mem_singleton] at hq
        subst hq
        exact hnotowned p hp
      · intro bk
        show (if a ≤ bk ∧ bk < a + k then true else s.base.memory_map bk) = true ↔
          ∃ p ∈ fmInsert s.file_map n (⟨k, a⟩ : CFile), bk ∈ p.2.blocks
        constructor
        · intro hbk
          by_cases hw : a ≤ bk ∧ bk < a + k
          · refine ⟨(n, ⟨k, a⟩), List.mem_append_right _ (List.mem_singleton_self _), ?_⟩
            rw [CFile.blocks, Finset.mem_Ico]
            exact hw
          · rw [if_neg hw] at hbk
            obtain ⟨p, hp, hbp⟩ := (h4 bk).1 hbk
            exact ⟨p, List.mem_append_left _ hp, hbp⟩
        · intro ⟨p, hp, hbp⟩
          rcases List.mem_append.mp hp with hp | hp
          · by_cases hw : a ≤ bk ∧ bk < a + k
            · rw [if_pos hw]
            · rw [if_neg hw]
              exact (h4 bk).2 ⟨p, hp, hbp⟩
          · simp only [List.mem_singleton] at hp
            subst hp
            rw [CFile.blocks, Finset.mem_Ico] at hbp
            rw [if_pos hbp]

theorem cfsDelete_inv (s : CState) (n : String) (s' : CState)
    (hinv : cfsInv s) (h : cfsDelete s n = some s') : cfsInv s' := by
  unfold cfsDelete at h
  cases hfind : fmFind s.file_map n with
  | none =>
    rw [hfind] at h
    dsimp only at h
    obtain rfl : s = s' := by injection h
    exact hinv
  | some f =>
    rw [hfind] at h
    dsimp only at h
    obtain ⟨h1, h2, h3, h4⟩ := hinv
    obtain ⟨l1, l2, hsplit, hl1⟩ := fmFind_split s.file_map n f hfind
    have hl2 : n ∉ l2.map Prod.fst := (nodupKeys_split l1 l2 n f (hsplit ▸ h1)).2
    have hmemf : (n, f) ∈ s.file_map := by
      rw [hsplit]
      exact List.mem_append_right _ (List.mem_cons_self _ _)
    have hfsub : f.blocks ⊆ Finset.range s.base.memory_size := h2 (n, f) hmemf
    have hbound : f.filesize = 0 ∨ f.start_block + f.filesize ≤ s.base.memory_size := by
      rcases Nat.eq_zero_or_pos f.filesize with hk | hk
      · exact Or.inl hk
      · right
        have hmem : f.start_block + f.filesize - 1 ∈ f.blocks := by
          rw [CFile.blocks, Finset.mem_Ico]
          omega
        have := Finset.mem_range.mp (hfsub hmem)
        omega
    rw [writeRangeI_char s.base.memory_size false f.filesize s.base.memory_map
      f.start_block hbound, optionMap_some] at h
    obtain rfl : (⟨{ s.base with
        memory_map := (fun t =>
          if f.start_block ≤ t ∧ t < f.start_block + f.filesize then false
          else s.base.memory_map t)
        used_memory := s.base.used_memory - f.filesize },
      fmErase s.file_map n⟩ : CState) = s' := by injection h
    have hErase : fmErase s.file_map n = l1 ++ l2 := by
      rw [hsplit]
      exact fmErase_eq_of_split l1 l2 n f hl1 hl2
    have hdisjf : ∀ p ∈ l1 ++ l2, Disjoint p.2.blocks f.blocks := by
      rw [hsplit] at h3
      rw [List.pairwise_append] at h3
      obtain ⟨hp1, hp2, hcross⟩ := h3
      intro p hp
      rcases List.mem_append.mp hp with hp | hp
      · exact hcross p hp (n, f) (List.mem_cons_self _ _)
      · exact ((List.pairwise_cons.mp hp2).1 p hp).symm
    have hwin : ∀ bk, (f.start_block ≤ bk ∧ bk < f.start_block + f.filesize) ↔
        bk ∈ f.blocks := by
      intro bk
      rw [CFile.blocks, Finset.mem_Ico]
    refine ⟨?_, ?_, ?_, ?_⟩
    · exact fmErase_keys_nodup s.file_map n h1
    · show ∀ p ∈ fmErase s.file_map n, p.2.blocks ⊆ Finset.range s.base.memory_size
      intro p hp
      rw [hErase] at hp
      have hps : p ∈ s.file_map := by
        rw [hsplit]
        rcases List.mem_append.mp hp with hp | hp
        · exact List.mem_append_left _ hp
        · exact List.mem_append_right _ (List.mem_cons_of_mem _ hp)
      exact h2 p hps
    · show (fmErase s.file_map n).Pairwise (fun p q => Disjoint p.2.blocks q.2.blocks)
      rw [hErase]
      apply List.Pairwise.sublist _ (hsplit ▸ h3)
      exact List.Sublist.append_left (List.sublist_cons_self _ _) l1
    · intro bk
      show (if f.start_block ≤ bk ∧ bk < f.start_block + f.filesize then false
        else s.base.memory_map bk) = true ↔ ∃ p ∈ fmErase s.file_map n, bk ∈ p.2.blocks
      rw [hErase]
      constructor
      · intro hbk
        by_cases hw : f.start_block ≤ bk ∧ bk < f.start_block + f.filesize
        · rw [if_pos hw] at hbk
          exact Bool.noConfusion hbk
        · rw [if_neg hw] at hbk
          obtain ⟨p, hp, hbp⟩ := (h4 bk).1 hbk
          rw [hsplit] at hp
          rcases List.mem_append.mp hp with hp | hp
          · exact ⟨p, List.mem_append_left _ hp, hbp⟩
          · rcases List.mem_cons.mp hp with heq | hp
            · rw [heq] at hbp
              exact absurd ((hwin bk).2 hbp) hw
            · exact ⟨p, List.mem_append_right _ hp, hbp⟩
      · intro ⟨p, hp, hbp⟩
        have hnw : ¬(f.start_block ≤ bk ∧ bk < f.start_block + f.filesize) := by
          rw [hwin bk]
          exact Finset.disjoint_left.mp (hdisjf p hp) hbp
        rw [if_neg hnw]
        have hps : p ∈ s.file_map := by
          rw [hsplit]
          rcases List.mem_append.mp hp with hp | hp
          · exact List.mem_append_left _ hp
          · exact List.mem_append_right _ (List.mem_cons_of_mem _ hp)
        exact (h4 bk).2 ⟨p, hps, hbp⟩

theorem optionBind_none {α β : Type} (f : α → Option β) :
    (none : Option α).bind f = none := rfl

theorem optionMap_none {α β : Type} (f : α → β) :
    (none : Option α).map f = none := rfl

theorem cfsWrite_inv (s : CState) (n : String) (sz off : Nat) (s' : CState) (ba : Nat)
    (hinv : cfsInv s) (h : cfsWrite s n sz off = some (s', ba)) : cfsInv s' := by
  unfold cfsWrite at h
  cases hfind : fmFind s.file_map n with
  | none =>
    rw [hfind] at h
    dsimp only at h
    simp only [Option.some.injEq, Prod.mk.injEq] at h
    obtain ⟨rfl, rfl⟩ := h
    exact hinv
  | some f =>
    rw [hfind] at h
    dsimp only at h
    by_cases hgrow : f.filesize < sz + off
    · rw [if_pos hgrow] at h
      cases hca : checkAvailAux s.base.memory_size s.base.memory_map
          (f.start_block + f.filesize) (sz + off - f.filesize) 0 with
      | none =>
        rw [hca, optionBind_none] at h
        exact Option.noConfusion h
      | some avail =>
        rw [hca, optionBind_some] at h
        by_cases hav : avail = sz + off - f.filesize
        · rw [if_pos hav] at h
          cases hw : writeRangeI s.base.memory_size s.base.memory_map
              ((f.start_block + f.filesize : Nat) : Int) true (sz + off - f.filesize) with
          | none =>
            rw [hw, optionMap_none] at h
            exact Option.noConfusion h
          | some mm' =>
            have hreq : 0 < sz + off - f.filesize := by omega
            have hbound : f.start_block + f.filesize + (sz + off - f.filesize) ≤
                s.base.memory_size :=
              writeRangeI_nat_isSome_bound s.base.memory_size true (sz + off - f.filesize)
                s.base.memory_map (f.start_block + f.filesize) (by rw [hw]; rfl) hreq
            have hwc := hw
            rw [writeRangeI_char s.base.memory_size true (sz + off - f.filesize)
              s.base.memory_map (f.start_block + f.filesize) (Or.inr hbound)] at hwc
            have hmmeq : mm' = (fun t =>
                if f.start_block + f.filesize ≤ t ∧
                  t < f.start_block + f.filesize + (sz + off - f.filesize)
                then true else s.base.memory_map t) := by
              injection hwc with hwc
              exact hwc.symm
            subst hmmeq
            rw [hw, optionMap_some] at h
            simp only [Option.some.injEq, Prod.mk.injEq] at h
            obtain ⟨rfl, rfl⟩ := h
            obtain ⟨h1, h2, h3, h4⟩ := hinv
            obtain ⟨l1, l2, hsplit, hl1⟩ := fmFind_split s.file_map n f hfind
            have hl2 : n ∉ l2.map Prod.fst := (nodupKeys_split l1 l2 n f (hsplit ▸ h1)).2
            have hfreewin : ∀ t, f.start_block + f.filesize ≤ t →
                t < f.start_block + f.filesize + (sz + off - f.filesize) →
                s.base.memory_map t = false := by
              obtain ⟨r, hr, hr1, hr2, hr3, hr4⟩ := checkAvailAux_spec s.base.memory_size
                s.base.memory_map (f.start_block + f.filesize) (sz + off - f.filesize) 0
                (by omega)
              rw [hca] at hr
              obtain rfl : avail = r := by injection hr
              intro t ht1 ht2
              have := hr3 (t - (f.start_block + f.filesize)) (by omega) (by omega)
              rw [show t - (f.start_block + f.filesize) + (f.start_block + f.filesize) = t
                from by omega] at this
              exact this
            have hW : ∀ p ∈ s.file_map, Disjoint p.2.blocks
                (Finset.Ico (f.start_block + f.filesize)
                  (f.start_block + f.filesize + (sz + off - f.filesize))) := by
              intro p hp
              rw [Finset.disjoint_right]
              intro t ht hpt
              rw [Finset.mem_Ico] at ht
              have hmt := (h4 t).2 ⟨p, hp, hpt⟩
              rw [hfreewin t ht.1 ht.2] at hmt
              exact Bool.noConfusion hmt
            have hupd : fmUpdate s.file_map n
                (fun x => { x with filesize := x.filesize + (sz + off - f.filesize) }) =
                l1 ++ (n, { f with filesize := f.filesize + (sz + off - f.filesize) }) :: l2 := by
              rw [hsplit]
              exact fmUpdate_eq_of_split l1 l2 n f _ hl1 hl2
            have hblocks : ({ f with
                filesize := f.filesize + (sz + off - f.filesize) } : CFile).blocks =
                f.blocks ∪ Finset.Ico (f.start_block + f.filesize)
                  (f.start_block + f.filesize + (sz + off - f.filesize)) := by
              show Finset.Ico f.start_block (f.start_block + (f.filesize +
                (sz + off - f.filesize))) = _
              rw [show f.start_block + (f.filesize + (sz + off - f.filesize)) =
                f.start_block + f.filesize + (sz + off - f.filesize) from by omega]
              rw [CFile.blocks]
              rw [Finset.Ico_union_Ico_eq_Ico (by omega) (by omega)]
            have hmemold : ∀ p, p ∈ l1 ∨ p ∈ l2 → p ∈ s.file_map := by
              intro p hp
              rw [hsplit]
              rcases hp with hp | hp
              · exact List.mem_append_left _ hp
              · exact List.mem_append_right _ (List.mem_cons_of_mem _ hp)
            refine ⟨?_, ?_, ?_, ?_⟩
            · show ((fmUpdate s.file_map n
                (fun x => { x with filesize := x.filesize + (sz + off - f.filesize) })).map
                  Prod.fst).Nodup
              rw [fmUpdate_keys]
              exact h1
            · show ∀ p ∈ fmUpdate s.file_map n
                (fun x => { x with filesize := x.filesize + (sz + off - f.filesize) }),
                p.2.blocks ⊆ Finset.range s.base.memory_size
              rw [hupd]
              intro p hp
              rcases List.mem_append.mp hp with hp | hp
              · exact h2 p (hmemold p (Or.inl hp))
              · rcases List.mem_cons.mp hp with rfl | hp
                · rw [hblocks]
                  intro t ht
                  rcases Finset.mem_union.mp ht with ht | ht
                  · exact h2 (n, f) (by
                      rw [hsplit]
                      exact List.mem_append_right _ (List.mem_cons_self _ _)) ht
                  · rw [Finset.mem_Ico] at ht
                    exact Finset.mem_range.mpr (by omega)
                · exact h2 p (hmemold p (Or.inr hp))
            · show (fmUpdate s.file_map n
                (fun x => { x with filesize := x.filesize + (sz + off - f.filesize) })).Pairwise
                (fun p q => Disjoint p.2.blocks q.2.blocks)
              rw [hupd]
              rw [hsplit, List.pairwise_append] at h3
              obtain ⟨hp1, hp2, hcross⟩ := h3
              rw [List.pairwise_cons] at hp2
              obtain ⟨hfq, hpl2⟩ := hp2
              rw [List.pairwise_append, List.pairwise_cons]
              refine ⟨hp1, ⟨?_, hpl2⟩, ?_⟩
              · intro q hq
                show Disjoint ({ f with
                  filesize := f.filesize + (sz + off - f.filesize) } : CFile).blocks q.2.blocks
                rw [hblocks, Finset.disjoint_union_left]
                exact ⟨hfq q hq, (hW q (hmemold q (Or.inr hq))).symm⟩
              · intro p hp q hq
                rcases List.mem_cons.mp hq with rfl | hq
                · show Disjoint p.2.blocks ({ f with
                    filesize := f.filesize + (sz + off - f.filesize) } : CFile).blocks
                  rw [hblocks, Finset.disjoint_union_right]
                  exact ⟨hcross p hp (n, f) (List.mem_cons_self _ _),
                    hW p (hmemold p (Or.inl hp))⟩
                · exact hcross p hp q (List.mem_cons_of_mem _ hq)
            · intro bk
              show (if f.start_block + f.filesize ≤ bk ∧
                  bk < f.start_block + f.filesize + (sz + off - f.filesize)
                then true else s.base.memory_map bk) = true ↔
                ∃ p ∈ fmUpdate s.file_map n
                  (fun x => { x with filesize := x.filesize + (sz + off - f.filesize) }),
                  bk ∈ p.2.blocks
              rw [hupd]
              constructor
              · intro hbk
                by_cases hwdw : f.start_block + f.filesize ≤ bk ∧
                    bk < f.start_block + f.filesize + (sz + off - f.filesize)
                · refine ⟨(n, { f with filesize := f.filesize + (sz + off - f.filesize) }),
                    List.mem_append_right _ (List.mem_cons_self _ _), ?_⟩
                  rw [hblocks]
                  exact Finset.mem_union_right _ (Finset.mem_Ico.mpr hwdw)
                · rw [if_neg hwdw] at hbk
                  obtain ⟨p, hp, hbp⟩ := (h4 bk).1 hbk
                  rw [hsplit] at hp
                  rcases List.mem_append.mp hp with hp | hp
                  · exact ⟨p, List.mem_append_left _ hp, hbp⟩
                  · rcases List.mem_cons.mp hp with heq | hp
                    · refine ⟨(n, { f with
                        filesize := f.filesize + (sz + off - f.filesize) }),
                        List.mem_append_right _ (List.mem_cons_self _ _), ?_⟩
                      rw [hblocks]
                      rw [heq] at hbp
                      exact Finset.mem_union_left _ hbp
                    · exact ⟨p, List.mem_append_right _ (List.mem_cons_of_mem _ hp), hbp⟩
              · intro ⟨p, hp, hbp⟩
                by_cases hwdw : f.start_block + f.filesize ≤ bk ∧
                    bk < f.start_block + f.filesize + (sz + off - f.filesize)
                · rw [if_pos hwdw]
                · rw [if_neg hwdw]
                  rcases List.mem_append.mp hp with hp | hp
                  · exact (h4 bk).2 ⟨p, hmemold p (Or.inl hp), hbp⟩
                  · rcases List.mem_cons.mp hp with heq | hp
                    · rw [heq] at hbp
                      rw [hblocks] at hbp
                      rcases Finset.mem_union.mp hbp with hbp | hbp
                      · refine (h4 bk).2 ⟨(n, f), ?_, hbp⟩
                        rw [hsplit]
                        exact List.mem_append_right _ (List.mem_cons_self _ _)
                      · rw [Finset.mem_Ico] at hbp
                        exact absurd hbp hwdw
                    · exact (h4 bk).2 ⟨p, hmemold p (Or.inr hp), hbp⟩
        · rw [if_neg hav] at h
          simp only [Option.some.injEq, Prod.mk.injEq] at h
          obtain ⟨rfl, rfl⟩ := h
          exact hinv
    · rw [if_neg hgrow] at h
      simp only [Option.some.injEq, Prod.mk.injEq] at h
      obtain ⟨rfl, rfl⟩ := h
      exact hinv

theorem cStep_inv (s : CState) (op : Op) (s' : CState)
    (hinv : cfsInv s) (h : cStep s op = some s') : cfsInv s' := by
  cases op with
  | create n k => exact cfsCreate_inv s n k s' hinv h
  | write n k off =>
    simp only [cStep] at h
    cases hw : cfsWrite s n k off with
    | none =>
      rw [hw, optionMap_none] at h
      exact Option.noConfusion h
    | some p =>
      rw [hw, optionMap_some] at h
      obtain rfl : p.1 = s' := by injection h
      exact cfsWrite_inv s n k off p.1 p.2 hinv (by rw [hw])
  | delete n => exact cfsDelete_inv s n s' hinv h

/-- Preservation of an invariant along a command sequence; `P`
restricts the commands considered. -/
theorem runOps_inv {σ : Type} (step : σ → Op → Option σ) (inv : σ → Prop) (P : Op → Prop)
    (hstep : ∀ s op s', P op → inv s → step s op = some s' → inv s') :
    ∀ (ops : List Op) (s s' : σ), (∀ op ∈ ops, P op) → inv s →
      runOps step s ops = some s' → inv s' := by
  intro ops
  induction ops with
  | nil =>
    intro s s' _ hinv h
    obtain rfl : s = s' := by injection h
    exact hinv
  | cons op rest ih =>
    intro s s' hP hinv h
    simp only [runOps] at h
    cases hstep1 : step s op with
    | none =>
      rw [hstep1, optionBind_none] at h
      exact Option.noConfusion h
    | some s1 =>
      rw [hstep1, optionBind_some] at h
      exact ih s1 s' (fun o ho => hP o (List.mem_cons_of_mem _ ho))
        (hstep s op s1 (hP op (List.mem_cons_self _ _)) hinv hstep1) h

theorem cInit_inv (n : Nat) (strat : Strategy) : cfsInv (cInit n strat) := by
  refine ⟨List.nodup_nil, ?_, List.Pairwise.nil, ?_⟩
  · intro p hp
    exact absurd hp (List.not_mem_nil p)
  · intro bk
    constructor
    · intro hbk
      exact Bool.noConfusion hbk
    · intro ⟨p, hp, _⟩
      exact absurd hp (List.not_mem_nil p)

/-! ### Linked allocator counting invariant -/

/-- Well-formedness of a `LinkedFileSystem` state: unique names, chain
lengths match the recorded sizes, and live sizes plus the free queue
account for all `N` blocks. -/
def lfsInv (s : LState) : Prop :=
  (s.file_map.map Prod.fst).Nodup ∧
  (∀ p ∈ s.file_map, (p.2 : LFile).chain.length = p.2.filesize) ∧
  sumSizes LFile.filesize s.file_map + s.free_list.length = s.memory_size

theorem sumSizes_insert {α : Type} (fsOf : α → Nat) (l : List (String × α)) (n : String)
    (v : α) : sumSizes fsOf (fmInsert l n v) = sumSizes fsOf l + fsOf v := by
  unfold sumSizes fmInsert
  rw [List.map_append, List.sum_append]
  rfl

theorem sumSizes_append {α : Type} (fsOf : α → Nat) (l1 l2 : List (String × α)) :
    sumSizes fsOf (l1 ++ l2) = sumSizes fsOf l1 + sumSizes fsOf l2 := by
  unfold sumSizes
  rw [List.map_append, List.sum_append]

theorem popN_some {α : Type} :
    ∀ (k : Nat) (l : List α) (xs rest : List α), popN k l = some (xs, rest) →
      xs = l.take k ∧ rest = l.drop k ∧ k ≤ l.length := by
  intro k
  induction k with
  | zero =>
    intro l xs rest h
    simp only [popN, Option.some.injEq, Prod.mk.injEq] at h
    obtain ⟨rfl, rfl⟩ := h
    exact ⟨rfl, rfl, by omega⟩
  | succ k ih =>
    intro l xs rest h
    cases l with
    | nil => exact Option.noConfusion h
    | cons x l' =>
      simp only [popN] at h
      cases hp : popN k l' with
      | none =>
        rw [hp, optionMap_none] at h
        exact Option.noConfusion h
      | some q =>
        rw [hp, optionMap_some] at h
        simp only [Option.some.injEq, Prod.mk.injEq] at h
        obtain ⟨rfl, rfl⟩ := h
        obtain ⟨h1, h2, h3⟩ := ih l' q.1 q.2 (by rw [hp])
        refine ⟨by rw [h1, List.take_succ_cons], by rw [h2, List.drop_succ_cons], ?_⟩
        simp only [List.length_cons]
        omega

theorem lfsCreate_inv (s : LState) (n : String) (k : Nat) (s' : LState)
    (hk : 1 ≤ k) (hinv : lfsInv s) (h : lfsCreate s n k = some s') : lfsInv s' := by
  unfold lfsCreate at h
  by_cases hdup : (fmFind s.file_map n).isSome
  · rw [if_pos hdup] at h
    obtain rfl : s = s' := by injection h
    exact hinv
  · rw [if_neg hdup] at h
    have hfnone : fmFind s.file_map n = none := Option.not_isSome_iff_eq_none.mp hdup
    by_cases hguard : s.free_list.length < k
    · rw [if_pos hguard] at h
      obtain rfl : s = s' := by injection h
      exact hinv
    · rw [if_neg hguard] at h
      cases hfl : s.free_list with
      | nil =>
        rw [hfl] at h
        exact Option.noConfusion h
      | cons b rest =>
        rw [hfl] at h
        dsimp only at h
        cases hp : popN (k - 1) rest with
        | none =>
          rw [hp, optionMap_none] at h
          exact Option.noConfusion h
        | some q =>
          rw [hp, optionMap_some] at h
          obtain ⟨hq1, hq2, hq3⟩ := popN_some (k - 1) rest q.1 q.2 (by rw [hp])
          obtain ⟨h1, h2, h3⟩ := hinv
          obtain rfl : ({ s with
              free_list := q.2
              file_map := fmInsert s.file_map n ⟨k, b :: q.1⟩
              used_memory := s.used_memory + k } : LState) = s' := by injection h
          refine ⟨?_, ?_, ?_⟩
          · show ((fmInsert s.file_map n ⟨k, b :: q.1⟩).map Prod.fst).Nodup
            exact fmInsert_keys_nodup s.file_map n _ h1 hfnone
          · intro p hp'
            rcases List.mem_append.mp hp' with hp' | hp'
            · exact h2 p hp'
            · simp only [List.mem_singleton] at hp'
              subst hp'
              show (b :: q.1).length = k
              rw [hq1]
              simp only [List.length_cons, List.length_take]
              omega
          · show sumSizes LFile.filesize (fmInsert s.file_map n ⟨k, b :: q.1⟩) +
              q.2.length = s.memory_size
            rw [sumSizes_insert, hq2]
            show sumSizes LFile.filesize s.file_map + k +
              (List.drop (k - 1) rest).length = s.memory_size
            simp only [List.length_drop]
            rw [hfl] at h3 hguard
            simp only [List.length_cons] at h3 hguard
            omega

theorem lWriteLoop_inv (size offset : Nat) :
    ∀ (fuel : Nat) (free chain : List Nat) (fs used bno w ba : Nat)
      (r : List Nat × List Nat × Nat × Nat × Nat),
      lWriteLoop size offset fuel free chain fs used bno w ba = some r →
      chain.length = fs →
      r.2.1.length = r.2.2.1 ∧ r.2.2.1 + r.1.length = fs + free.length := by
  intro fuel
  induction fuel with
  | zero =>
    intro free chain fs used bno w ba r h _
    exact Option.noConfusion h
  | succ fuel ih =>
    intro free chain fs used bno w ba r h hlen
    simp only [lWriteLoop] at h
    by_cases hw : w ≠ size
    · rw [if_pos hw] at h
      by_cases hbno : bno < chain.length
      · rw [if_pos hbno] at h
        by_cases hoff : offset ≤ bno
        · rw [if_pos hoff] at h
          exact ih free chain fs used (bno + 1) (w + 1) (ba + 1) r h hlen
        · rw [if_neg hoff] at h
          exact ih free chain fs used (bno + 1) w (ba + 1) r h hlen
      · rw [if_neg hbno] at h
        cases free with
        | nil =>
          dsimp only at h
          exact Option.noConfusion h
        | cons nb free' =>
          dsimp only at h
          by_cases hce : chain.isEmpty
          · rw [if_pos hce] at h
            exact Option.noConfusion h
          · rw [if_neg hce] at h
            have hlen' : (chain ++ [nb]).length = fs + 1 := by
              simp only [List.length_append, List.length_cons, List.length_nil]
              omega
            by_cases hoff : offset ≤ bno
            · rw [if_pos hoff] at h
              have := ih free' (chain ++ [nb]) (fs + 1) (used + 1) (bno + 1) (w + 1) (ba + 1)
                r h hlen'
              simp only [List.length_cons]
              omega
            · rw [if_neg hoff] at h
              have := ih free' (chain ++ [nb]) (fs + 1) (used + 1) (bno + 1) w (ba + 1)
                r h hlen'
              simp only [List.length_cons]
              omega
    · rw [if_neg hw] at h
      simp only [Option.some.injEq] at h
      subst h
      exact ⟨hlen, rfl⟩

theorem lfsWrite_inv (s : LState) (n : String) (sz off : Nat) (s' : LState) (ba : Nat)
    (hinv : lfsInv s) (h : lfsWrite s n sz off = some (s', ba)) : lfsInv s' := by
  unfold lfsWrite at h
  cases hfind : fmFind s.file_map n with
  | none =>
    rw [hfind] at h
    dsimp only at h
    simp only [Option.some.injEq, Prod.mk.injEq] at h
    obtain ⟨rfl, rfl⟩ := h
    exact hinv
  | some f =>
    rw [hfind] at h
    dsimp only at h
    by_cases hguard : f.filesize < off + sz ∧ s.free_list.length < off + sz - f.filesize
    · rw [if_pos hguard] at h
      simp only [Option.some.injEq, Prod.mk.injEq] at h
      obtain ⟨rfl, rfl⟩ := h
      exact hinv
    · rw [if_neg hguard] at h
      cases hloop : lWriteLoop sz off (off + sz + 1) s.free_list f.chain f.filesize
          s.used_memory 0 0 1 with
      | none =>
        rw [hloop, optionMap_none] at h
        exact Option.noConfusion h
      | some r =>
        rw [hloop, optionMap_some] at h
        simp only [Option.some.injEq, Prod.mk.injEq] at h
        obtain ⟨rfl, rfl⟩ := h
        obtain ⟨h1, h2, h3⟩ := hinv
        obtain ⟨l1, l2, hsplit, hl1⟩ := fmFind_split s.file_map n f hfind
        have hl2 : n ∉ l2.map Prod.fst := (nodupKeys_split l1 l2 n f (hsplit ▸ h1)).2
        have hflen : f.chain.length = f.filesize := h2 (n, f) (by
          rw [hsplit]
          exact List.mem_append_right _ (List.mem_cons_self _ _))
        obtain ⟨hr1, hr2⟩ := lWriteLoop_inv sz off (off + sz + 1) s.free_list f.chain
          f.filesize s.used_memory 0 0 1 r hloop hflen
        have hupd : fmUpdate s.file_map n
            (fun x => { x with filesize := r.2.2.1, chain := r.2.1 }) =
            l1 ++ (n, { f with filesize := r.2.2.1, chain := r.2.1 }) :: l2 := by
          rw [hsplit]
          exact fmUpdate_eq_of_split l1 l2 n f _ hl1 hl2
        refine ⟨?_, ?_, ?_⟩
        · show ((fmUpdate s.file_map n
            (fun x => { x with filesize := r.2.2.1, chain := r.2.1 })).map Prod.fst).Nodup
          rw [fmUpdate_keys]
          exact h1
        · show ∀ p ∈ fmUpdate s.file_map n
            (fun x => { x with filesize := r.2.2.1, chain := r.2.1 }),
            p.2.chain.length = p.2.filesize
          rw [hupd]
          intro p hp
          rcases List.mem_append.mp hp with hp | hp
          · exact h2 p (by
              rw [hsplit]
              exact List.mem_append_left _ hp)
          · rcases List.mem_cons.mp hp with heq | hp
            · rw [heq]
              exact hr1
            · exact h2 p (by
                rw [hsplit]
                exact List.mem_append_right _ (List.mem_cons_of_mem _ hp))
        · show sumSizes LFile.filesize (fmUpdate s.file_map n
            (fun x => { x with filesize := r.2.2.1, chain := r.2.1 })) + r.1.length =
            s.memory_size
          rw [hupd, sumSizes_split]
          rw [hsplit, sumSizes_split] at h3
          have hfs : ({ f with filesize := r.2.2.1, chain := r.2.1 } : LFile).filesize =
            r.2.2.1 := rfl
          rw [hfs]
          omega

theorem lfsDelete_inv (s : LState) (n : String) (s' : LState)
    (hinv : lfsInv s) (h : lfsDelete s n = some s') : lfsInv s' := by
  unfold lfsDelete at h
  cases hfind : fmFind s.file_map n with
  | none =>
    rw [hfind] at h
    dsimp only at h
    obtain rfl : s = s' := by injection h
    exact hinv
  | some f =>
    rw [hfind] at h
    dsimp only at h
    obtain rfl : ({ s with
        free_list := s.free_list ++ f.chain
        used_memory := s.used_memory - f.filesize
        file_map := fmErase s.file_map n } : LState) = s' := by injection h
    obtain ⟨h1, h2, h3⟩ := hinv
    obtain ⟨l1, l2, hsplit, hl1⟩ := fmFind_split s.file_map n f hfind
    have hl2 : n ∉ l2.map Prod.fst := (nodupKeys_split l1 l2 n f (hsplit ▸ h1)).2
    have hflen : f.chain.length = f.filesize := h2 (n, f) (by
      rw [hsplit]
      exact List.mem_append_right _ (List.mem_cons_self _ _))
    have hErase : fmErase s.file_map n = l1 ++ l2 := by
      rw [hsplit]
      exact fmErase_eq_of_split l1 l2 n f hl1 hl2
    refine ⟨?_, ?_, ?_⟩
    · exact fmErase_keys_nodup s.file_map n h1
    · show ∀ p ∈ fmErase s.file_map n, p.2.chain.length = p.2.filesize
      rw [hErase]
      intro p hp
      rcases List.mem_append.mp hp with hp | hp
      · exact h2 p (by
          rw [hsplit]
          exact List.mem_append_left _ hp)
      · exact h2 p (by
          rw [hsplit]
          exact List.mem_append_right _ (List.mem_cons_of_mem _ hp))
    · show sumSizes LFile.filesize (fmErase s.file_map n) +
        (s.free_list ++ f.chain).length = s.memory_size
      rw [hErase, sumSizes_append, List.length_append]
      rw [hsplit, sumSizes_split] at h3
      omega

theorem lStep_inv (s : LState) (op : Op) (s' : LState)
    (hop : ∀ n, op ≠ Op.create n 0) (hinv : lfsInv s) (h : lStep s op = some s') :
    lfsInv s' := by
  cases op with
  | create n k =>
    have hk : 1 ≤ k := by
      rcases Nat.eq_zero_or_pos k with rfl | hk
      · exact absurd rfl (hop n)
      · exact hk
    exact lfsCreate_inv s n k s' hk hinv h
  | write n k off =>
    simp only [lStep] at h
    cases hw : lfsWrite s n k off with
    | none =>
      rw [hw, optionMap_none] at h
      exact Option.noConfusion h
    | some p =>
      rw [hw, optionMap_some] at h
      obtain rfl : p.1 = s' := by injection h
      exact lfsWrite_inv s n k off p.1 p.2 hinv (by rw [hw])
  | delete n => exact lfsDelete_inv s n s' hinv h

theorem lInit_inv (n : Nat) : lfsInv (lInit n) := by
  refine ⟨List.nodup_nil, ?_, ?_⟩
  · intro p hp
    exact absurd hp (List.not_mem_nil p)
  · show sumSizes LFile.filesize [] + (List.range n).length = n
    rw [List.length_range]
    exact Nat.zero_add n

/-! ### Indexed allocator counting invariant -/

/-- Well-formedness of an `IndexedFileSystem` state. -/
def ifsInv (s : IState) : Prop :=
  (s.file_map.map Prod.fst).Nodup ∧
  (∀ p ∈ s.file_map, (p.2 : IFile).block_indices.length = p.2.filesize) ∧
  sumSizes IFile.filesize s.file_map + s.free_list.length = s.memory_size

theorem ifsCreate_inv (s : IState) (n : String) (k : Nat) (s' : IState)
    (hinv : ifsInv s) (h : ifsCreate s n k = some s') : ifsInv s' := by
  unfold ifsCreate at h
  by_cases hdup : (fmFind s.file_map n).isSome
  · rw [if_pos hdup] at h
    obtain rfl : s = s' := by injection h
    exact hinv
  · rw [if_neg hdup] at h
    have hfnone : fmFind s.file_map n = none := Option.not_isSome_iff_eq_none.mp hdup
    by_cases hguard : s.free_list.length < k
    · rw [if_pos hguard] at h
      obtain rfl : s = s' := by injection h
      exact hinv
    · rw [if_neg hguard] at h
      cases hp : popN k s.free_list with
      | none =>
        rw [hp, optionBind_none] at h
        exact Option.noConfusion h
      | some q =>
        rw [hp, optionBind_some] at h
        by_cases hq0 : q.1 = []
        · rw [if_pos hq0] at h
          exact Option.noConfusion h
        · rw [if_neg hq0] at h
          obtain ⟨hq1, hq2, hq3⟩ := popN_some k s.free_list q.1 q.2 (by rw [hp])
          obtain ⟨h1, h2, h3⟩ := hinv
          obtain rfl : ({ s with
              free_list := q.2
              used_memory := s.used_memory + k
              file_map := fmInsert s.file_map n ⟨k, q.1⟩ } : IState) = s' := by injection h
          refine ⟨?_, ?_, ?_⟩
          · show ((fmInsert s.file_map n ⟨k, q.1⟩).map Prod.fst).Nodup
            exact fmInsert_keys_nodup s.file_map n _ h1 hfnone
          · intro p hp'
            rcases List.mem_append.mp hp' with hp' | hp'
            · exact h2 p hp'
            · simp only [List.mem_singleton] at hp'
              subst hp'
              show q.1.length = k
              rw [hq1]
              simp only [List.length_take]
              omega
          · show sumSizes IFile.filesize (fmInsert s.file_map n ⟨k, q.1⟩) + q.2.length =
              s.memory_size
            rw [sumSizes_insert, hq2]
            show sumSizes IFile.filesize s.file_map + k +
              (List.drop k s.free_list).length = s.memory_size
            simp only [List.length_drop]
            omega

theorem iWriteLoop_inv :
    ∀ (rsz : Nat) (free tbl : List Nat) (fs used bno ba : Nat)
      (r : List Nat × List Nat × Nat × Nat × Nat),
      iWriteLoop rsz free tbl fs used bno ba = some r →
      tbl.length = fs →
      r.2.1.length = r.2.2.1 ∧ r.2.2.1 + r.1.length = fs + free.length := by
  intro rsz
  induction rsz with
  | zero =>
    intro free tbl fs used bno ba r h hlen
    simp only [iWriteLoop, Option.some.injEq] at h
    subst h
    exact ⟨hlen, rfl⟩
  | succ rsz ih =>
    intro free tbl fs used bno ba r h hlen
    simp only [iWriteLoop] at h
    by_cases hb : tbl.length ≤ bno
    · rw [if_pos hb] at h
      cases free with
      | nil =>
        dsimp only at h
        exact Option.noConfusion h
      | cons nb free' =>
        dsimp only at h
        by_cases hlt : bno < (tbl ++ [nb]).length
        · rw [if_pos hlt] at h
          have := ih free' (tbl ++ [nb]) (fs + 1) (used + 1) (bno + 1) (ba + 1) r h
            (by
              simp only [List.length_append, List.length_cons, List.length_nil]
              omega)
          simp only [List.length_cons]
          omega
        · rw [if_neg hlt] at h
          exact Option.noConfusion h
    · rw [if_neg hb] at h
      exact ih free tbl fs used (bno + 1) (ba + 1) r h hlen

theorem ifsWrite_inv (s : IState) (n : String) (sz off : Nat) (s' : IState) (ba : Nat)
    (hinv : ifsInv s) (h : ifsWrite s n sz off = some (s', ba)) : ifsInv s' := by
  unfold ifsWrite at h
  cases hfind : fmFind s.file_map n with
  | none =>
    rw [hfind] at h
    dsimp only at h
    simp only [Option.some.injEq, Prod.mk.injEq] at h
    obtain ⟨rfl, rfl⟩ := h
    exact hinv
  | some f =>
    rw [hfind] at h
    dsimp only at h
    by_cases hguard : f.filesize < off + sz ∧ s.free_list.length < off + sz - f.filesize
    · rw [if_pos hguard] at h
      simp only [Option.some.injEq, Prod.mk.injEq] at h
      obtain ⟨rfl, rfl⟩ := h
      exact hinv
    · rw [if_neg hguard] at h
      cases hloop : iWriteLoop sz s.free_list f.block_indices f.filesize
          s.used_memory off 1 with
      | none =>
        rw [hloop, optionMap_none] at h
        exact Option.noConfusion h
      | some r =>
        rw [hloop, optionMap_some] at h
        simp only [Option.some.injEq, Prod.mk.injEq] at h
        obtain ⟨rfl, rfl⟩ := h
        obtain ⟨h1, h2, h3⟩ := hinv
        obtain ⟨l1, l2, hsplit, hl1⟩ := fmFind_split s.file_map n f hfind
        have hl2 : n ∉ l2.map Prod.fst := (nodupKeys_split l1 l2 n f (hsplit ▸ h1)).2
        have hflen : f.block_indices.length = f.filesize := h2 (n, f) (by
          rw [hsplit]
          exact List.mem_append_right _ (List.mem_cons_self _ _))
        obtain ⟨hr1, hr2⟩ := iWriteLoop_inv sz s.free_list f.block_indices f.filesize
          s.used_memory off 1 r hloop hflen
        have hupd : fmUpdate s.file_map n
            (fun x => { x with filesize := r.2.2.1, block_indices := r.2.1 }) =
            l1 ++ (n, { f with filesize := r.2.2.1, block_indices := r.2.1 }) :: l2 := by
          rw [hsplit]
          exact fmUpdate_eq_of_split l1 l2 n f _ hl1 hl2
        refine ⟨?_, ?_, ?_⟩
        · show ((fmUpdate s.file_map n
            (fun x => { x with filesize := r.2.2.1, block_indices := r.2.1 })).map
              Prod.fst).Nodup
          rw [fmUpdate_keys]
          exact h1
        · show ∀ p ∈ fmUpdate s.file_map n
            (fun x => { x with filesize := r.2.2.1, block_indices := r.2.1 }),
            p.2.block_indices.length = p.2.filesize
          rw [hupd]
          intro p hp
          rcases List.mem_append.mp hp with hp | hp
          · exact h2 p (by
              rw [hsplit]
              exact List.mem_append_left _ hp)
          · rcases List.mem_cons.mp hp with heq | hp
            · rw [heq]
              exact hr1
            · exact h2 p (by
                rw [hsplit]
                exact List.mem_append_right _ (List.mem_cons_of_mem _ hp))
        · show sumSizes IFile.filesize (fmUpdate s.file_map n
            (fun x => { x with filesize := r.2.2.1, block_indices := r.2.1 })) +
            r.1.length = s.memory_size
          rw [hupd, sumSizes_split]
          rw [hsplit, sumSizes_split] at h3
          have hfs : ({ f with filesize := r.2.2.1, block_indices := r.2.1 } : IFile).filesize =
            r.2.2.1 := rfl
          rw [hfs]
          omega

theorem ifsDelete_inv (s : IState) (n : String) (s' : IState)
    (hinv : ifsInv s) (h : ifsDelete s n = some s') : ifsInv s' := by
  unfold ifsDelete at h
  cases hfind : fmFind s.file_map n with
  | none =>
    rw [hfind] at h
    dsimp only at h
    obtain rfl : s = s' := by injection h
    exact hinv
  | some f =>
    rw [hfind] at h
    dsimp only at h
    obtain rfl : ({ s with
        free_list := s.free_list ++ f.block_indices
        used_memory := s.used_memory - f.filesize
        file_map := fmErase s.file_map n } : IState) = s' := by injection h
    obtain ⟨h1, h2, h3⟩ := hinv
    obtain ⟨l1, l2, hsplit, hl1⟩ := fmFind_split s.file_map n f hfind
    have hl2 : n ∉ l2.map Prod.fst := (nodupKeys_split l1 l2 n f (hsplit ▸ h1)).2
    have hflen : f.block_indices.length = f.filesize := h2 (n, f) (by
      rw [hsplit]
      exact List.mem_append_right _ (List.mem_cons_self _ _))
    have hErase : fmErase s.file_map n = l1 ++ l2 := by
      rw [hsplit]
      exact fmErase_eq_of_split l1 l2 n f hl1 hl2
    refine ⟨?_, ?_, ?_⟩
    · exact fmErase_keys_nodup s.file_map n h1
    · show ∀ p ∈ fmErase s.file_map n, p.2.block_indices.length = p.2.filesize
      rw [hErase]
      intro p hp
      rcases List.mem_append.mp hp with hp | hp
      · exact h2 p (by
          rw [hsplit]
          exact List.mem_append_left _ hp)
      · exact h2 p (by
          rw [hsplit]
          exact List.mem_append_right _ (List.mem_cons_of_mem _ hp))
    · show sumSizes IFile.filesize (fmErase s.file_map n) +
        (s.free_list ++ f.block_indices).length = s.memory_size
      rw [hErase, sumSizes_append, List.length_append]
      rw [hsplit, sumSizes_split] at h3
      omega

theorem iStep_inv (s : IState) (op : Op) (s' : IState)
    (hinv : ifsInv s) (h : iStep s op = some s') : ifsInv s' := by
  cases op with
  | create n k => exact ifsCreate_inv s n k s' hinv h
  | write n k off =>
    simp only [iStep] at h
    cases hw : ifsWrite s n k off with
    | none =>
      rw [hw, optionMap_none] at h
      exact Option.noConfusion h
    | some p =>
      rw [hw, optionMap_some] at h
      obtain rfl : p.1 = s' := by injection h
      exact ifsWrite_inv s n k off p.1 p.2 hinv (by rw [hw])
  | delete n => exact ifsDelete_inv s n s' hinv h

theorem iInit_inv (n : Nat) : ifsInv (iInit n) := by
  refine ⟨List.nodup_nil, ?_, ?_⟩
  · intro p hp
    exact absurd hp (List.not_mem_nil p)
  · show sumSizes IFile.filesize [] + (List.range n).length = n
    rw [List.length_range]
    exact Nat.zero_add n

theorem lfsCreate_msize (s : LState) (n : String) (k : Nat) (s' : LState)
    (h : lfsCreate s n k = some s') : s'.memory_size = s.memory_size := by
  unfold lfsCreate at h
  by_cases hdup : (fmFind s.file_map n).isSome
  · rw [if_pos hdup] at h
    obtain rfl : s = s' := by injection h
    rfl
  · rw [if_neg hdup] at h
    by_cases hg : s.free_list.length < k
    · rw [if_pos hg] at h
      obtain rfl : s = s' := by injection h
      rfl
    · rw [if_neg hg] at h
      cases hfl : s.free_list with
      | nil =>
        rw [hfl] at h
        dsimp only at h
        exact Option.noConfusion h
      | cons b rest =>
        rw [hfl] at h
        dsimp only at h
        cases hp : popN (k - 1) rest with
        | none =>
          rw [hp, optionMap_none] at h
          exact Option.noConfusion h
        | some q =>
          rw [hp, optionMap_some] at h
          obtain rfl : ({ s with
              free_list := q.2
              file_map := fmInsert s.file_map n ⟨k, b :: q.1⟩
              used_memory := s.used_memory + k } : LState) = s' := by injection h
          rfl

theorem lfsWrite_msize (s : LState) (n : String) (sz off : Nat) (s' : LState) (ba : Nat)
    (h : lfsWrite s n sz off = some (s', ba)) : s'.memory_size = s.memory_size := by
  unfold lfsWrite at h
  cases hfind : fmFind s.file_map n with
  | none =>
    rw [hfind] at h
    dsimp only at h
    simp only [Option.some.injEq, Prod.mk.injEq] at h
    obtain ⟨rfl, rfl⟩ := h
    rfl
  | some f =>
    rw [hfind] at h
    dsimp only at h
    by_cases hg : f.filesize < off + sz ∧ s.free_list.length < off + sz - f.filesize
    · rw [if_pos hg] at h
      simp only [Option.some.injEq, Prod.mk.injEq] at h
      obtain ⟨rfl, rfl⟩ := h
      rfl
    · rw [if_neg hg] at h
      cases hl : lWriteLoop sz off (off + sz + 1) s.free_list f.chain f.filesize
          s.used_memory 0 0 1 with
      | none =>
        rw [hl, optionMap_none] at h
        exact Option.noConfusion h
      | some r =>
        rw [hl, optionMap_some] at h
        simp only [Option.some.injEq, Prod.mk.injEq] at h
        obtain ⟨rfl, rfl⟩ := h
        rfl

theorem lfsDelete_msize (s : LState) (n : String) (s' : LState)
    (h : lfsDelete s n = some s') : s'.memory_size = s.memory_size := by
  unfold lfsDelete at h
  cases hfind : fmFind s.file_map n with
  | none =>
    rw [hfind] at h
    dsimp only at h
    obtain rfl : s = s' := by injection h
    rfl
  | some f =>
    rw [hfind] at h
    dsimp only at h
    obtain rfl : ({ s with
        free_list := s.free_list ++ f.chain
        used_memory := s.used_memory - f.filesize
        file_map := fmErase s.file_map n } : LState) = s' := by injection h
    rfl

theorem lStep_msize (s : LState) (op : Op) (s' : LState)
    (h : lStep s op = some s') : s'.memory_size = s.memory_size := by
  cases op with
  | create n k => exact lfsCreate_msize s n k s' h
  | write n k off =>
    simp only [lStep] at h
    cases hw : lfsWrite s n k off with
    | none =>
      rw [hw, optionMap_none] at h
      exact Option.noConfusion h
    | some p =>
      rw [hw, optionMap_some] at h
      obtain rfl : p.1 = s' := by injection h
      exact lfsWrite_msize s n k off p.1 p.2 (by rw [hw])
  | delete n => exact lfsDelete_msize s n s' h

theorem ifsCreate_msize (s : IState) (n : String) (k : Nat) (s' : IState)
    (h : ifsCreate s n k = some s') : s'.memory_size = s.memory_size := by
  unfold ifsCreate at h
  by_cases hdup : (fmFind s.file_map n).isSome
  · rw [if_pos hdup] at h
    obtain rfl : s = s' := by injection h
    rfl
  · rw [if_neg hdup] at h
    by_cases hg : s.free_list.length < k
    · rw [if_pos hg] at h
      obtain rfl : s = s' := by injection h
      rfl
    · rw [if_neg hg] at h
      cases hp : popN k s.free_list with
      | none =>
        rw [hp, optionBind_none] at h
        exact Option.noConfusion h
      | some q =>
        rw [hp, optionBind_some] at h
        by_cases hq0 : q.1 = []
        · rw [if_pos hq0] at h
          exact Option.noConfusion h
        · rw [if_neg hq0] at h
          obtain rfl : ({ s with
              free_list := q.2
              used_memory := s.used_memory + k
              file_map := fmInsert s.file_map n ⟨k, q.1⟩ } : IState) = s' := by injection h
          rfl

theorem ifsWrite_msize (s : IState) (n : String) (sz off : Nat) (s' : IState) (ba : Nat)
    (h : ifsWrite s n sz off = some (s', ba)) : s'.memory_size = s.memory_size := by
  unfold ifsWrite at h
  cases hfind : fmFind s.file_map n with
  | none =>
    rw [hfind] at h
    dsimp only at h
    simp only [Option.some.injEq, Prod.mk.injEq] at h
    obtain ⟨rfl, rfl⟩ := h
    rfl
  | some f =>
    rw [hfind] at h
    dsimp only at h
    by_cases hg : f.filesize < off + sz ∧ s.free_list.length < off + sz - f.filesize
    · rw [if_pos hg] at h
      simp only [Option.some.injEq, Prod.mk.injEq] at h
      obtain ⟨rfl, rfl⟩ := h
      rfl
    · rw [if_neg hg] at h
      cases hl : iWriteLoop sz s.free_list f.block_indices f.filesize s.used_memory off 1 with
      | none =>
        rw [hl, optionMap_none] at h
        exact Option.noConfusion h
      | some r =>
        rw [hl, optionMap_some] at h
        simp only [Option.some.injEq, Prod.mk.injEq] at h
        obtain ⟨rfl, rfl⟩ := h
        rfl

theorem ifsDelete_msize (s : IState) (n : String) (s' : IState)
    (h : ifsDelete s n = some s') : s'.memory_size = s.memory_size := by
  unfold ifsDelete at h
  cases hfind : fmFind s.file_map n with
  | none =>
    rw [hfind] at h
    dsimp only at h
    obtain rfl : s = s' := by injection h
    rfl
  | some f =>
    rw [hfind] at h
    dsimp only at h
    obtain rfl : ({ s with
        free_list := s.free_list ++ f.block_indices
        used_memory := s.used_memory - f.filesize
        file_map := fmErase s.file_map n } : IState) = s' := by injection h
    rfl

theorem iStep_msize (s : IState) (op : Op) (s' : IState)
    (h : iStep s op = some s') : s'.memory_size = s.memory_size := by
  cases op with
  | create n k => exact ifsCreate_msize s n k s' h
  | write n k off =>
    simp only [iStep] at h
    cases hw : ifsWrite s n k off with
    | none =>
      rw [hw, optionMap_none] at h
      exact Option.noConfusion h
    | some p =>
      rw [hw, optionMap_some] at h
      obtain rfl : p.1 = s' := by injection h
      exact ifsWrite_msize s n k off p.1 p.2 (by rw [hw])
  | delete n => exact ifsDelete_msize s n s' h

/-! ### Modified-contiguous allocator invariant -/

/-- Total number of blocks of a run chain. -/
def chainSize (c : List MRun) : Nat :=
  (c.map MRun.size).sum

theorem chainSize_append (c1 c2 : List MRun) :
    chainSize (c1 ++ c2) = chainSize c1 + chainSize c2 := by
  unfold chainSize
  rw [List.map_append, List.sum_append]

/-- All runs of all live files, in registry order. -/
def allRuns : List (String × MFile) → List MRun
  | [] => []
  | p :: rest => p.2.chain ++ allRuns rest

theorem allRuns_append (l1 l2 : List (String × MFile)) :
    allRuns (l1 ++ l2) = allRuns l1 ++ allRuns l2 := by
  induction l1 with
  | nil => rfl
  | cons p rest ih =>
    show p.2.chain ++ allRuns (rest ++ l2) = (p.2.chain ++ allRuns rest) ++ allRuns l2
    rw [ih, List.append_assoc]

/-- Well-formedness of a `ModifiedContiguousFileSystem` state: unique
names, non-empty chains accounting exactly for the recorded sizes, runs
in range and pairwise disjoint, and the block map marking exactly the
blocks of the live runs. -/
def mcfsInv (s : MState) : Prop :=
  (s.file_map.map Prod.fst).Nodup ∧
  (∀ p ∈ s.file_map, chainSize (p.2 : MFile).chain = p.2.filesize ∧ p.2.chain ≠ []) ∧
  (∀ r ∈ allRuns s.file_map, MRun.blocks r ⊆ Finset.range s.base.memory_size) ∧
  (allRuns s.file_map).Pairwise (fun r q => Disjoint r.blocks q.blocks) ∧
  (∀ bk, s.base.memory_map bk = true ↔ ∃ r ∈ allRuns s.file_map, bk ∈ MRun.blocks r)

theorem allRuns_size_sum :
    ∀ l : List (String × MFile),
      (∀ p ∈ l, chainSize (p.2 : MFile).chain = p.2.filesize) →
      ((allRuns l).map MRun.size).sum = sumSizes MFile.filesize l := by
  intro l
  induction l with
  | nil => intro _; rfl
  | cons p rest ih =>
    intro h
    show ((p.2.chain ++ allRuns rest).map MRun.size).sum = sumSizes MFile.filesize (p :: rest)
    rw [List.map_append, List.sum_append, ih (fun q hq => h q (List.mem_cons_of_mem _ hq))]
    have hp : (p.2.chain.map MRun.size).sum = p.2.filesize := h p (List.mem_cons_self _ _)
    rw [hp]
    show p.2.filesize + sumSizes MFile.filesize rest =
      ((p :: rest).map (fun q => q.2.filesize)).sum
    rw [List.map_cons, List.sum_cons]
    rfl

theorem mcfsInv_popcount (s : MState) (h : mcfsInv s) :
    popcount s.base.memory_size s.base.memory_map = sumSizes MFile.filesize s.file_map := by
  obtain ⟨hnd, hch, hsub, hdis, hiff⟩ := h
  rw [popcount_partition s.base.memory_size ((allRuns s.file_map).map MRun.blocks)
    s.base.memory_map]
  · rw [List.map_map]
    rw [← allRuns_size_sum s.file_map (fun p hp => (hch p hp).1)]
    congr 1
    apply List.map_congr_left
    intro r _
    simp only [Function.comp_apply, MRun.blocks, Nat.card_Ico, Nat.add_sub_cancel_left]
  · intro u hu
    obtain ⟨r, hr, rfl⟩ := List.mem_map.mp hu
    exact hsub r hr
  · exact (List.pairwise_map).mpr hdis
  · intro b
    rw [hiff b]
    constructor
    · intro ⟨r, hr, hbr⟩
      exact ⟨r.blocks, List.mem_map.mpr ⟨r, hr, rfl⟩, hbr⟩
    · intro ⟨u, hu, hbu⟩
      obtain ⟨r, hr, rfl⟩ := List.mem_map.mp hu
      exact ⟨r, hr, hbu⟩

theorem mcfsInv_transport (s s' : MState) (h1 : s'.base.memory_size = s.base.memory_size)
    (h2 : s'.base.memory_map = s.base.memory_map) (h3 : s'.file_map = s.file_map)
    (h : mcfsInv s) : mcfsInv s' := by
  unfold mcfsInv at *
  rw [h1, h2, h3]
  exact h

/-- The marking loop starting at a negative index crashes on its first
`set` as soon as it runs at least once. -/
theorem writeRangeI_neg (ms : Nat) (mm : Nat → Bool) (start : Int) (v : Bool) (k : Nat)
    (hs : start < 0) (hk : 0 < k) : writeRangeI ms mm start v k = none := by
  cases k with
  | zero => omega
  | succ k =>
    simp only [writeRangeI, bmSetI]
    rw [if_neg (by omega : ¬(0 : Int) ≤ start)]
    rfl

theorem mInnerLoop_fst_le (size : Nat) :
    ∀ (st w ba : Nat), (mInnerLoop size st w ba).1 ≤ w + st := by
  intro st
  induction st with
  | zero =>
    intro w ba
    show w ≤ w + 0
    omega
  | succ st ih =>
    intro w ba
    show (if w ≠ size then mInnerLoop size st (w + 1) (ba + 1) else (w, ba)).1 ≤ w + (st + 1)
    by_cases hw : w ≠ size
    · rw [if_pos hw]
      have := ih (w + 1) (ba + 1)
      omega
    · rw [if_neg hw]
      show w ≤ w + (st + 1)
      omega

/-- As long as the written count cannot reach `size` within the chain,
the traversal of `ModifiedContiguousFileSystem::write` visits every
node. -/
theorem mWriteLoop_visits_all (size : Nat) :
    ∀ (c : List MRun) (offset bno w ba vis : Nat),
      w + (bno + chainSize c - offset) < size →
      (mWriteLoop size c offset bno w ba vis).2.2 = vis + c.length := by
  intro c
  induction c with
  | nil =>
    intro offset bno w ba vis _
    rfl
  | cons b rest ih =>
    intro offset bno w ba vis hb
    have hc : chainSize (b :: rest) = b.size + chainSize rest := by
      simp only [chainSize, List.map_cons, List.sum_cons]
    have hw : w < size := by omega
    simp only [mWriteLoop]
    rw [if_pos hw]
    by_cases hhit : bno ≤ offset ∧ offset < bno + b.size
    · rw [if_pos hhit]
      have hrle := mInnerLoop_fst_le size (b.size - (offset - bno)) w
        (if offset - bno = 0 then ba else ba + 1)
      have hrec := ih
        (offset + (mInnerLoop size (b.size - (offset - bno)) w
          (if offset - bno = 0 then ba else ba + 1)).1)
        (bno + b.size)
        (mInnerLoop size (b.size - (offset - bno)) w
          (if offset - bno = 0 then ba else ba + 1)).1
        (mInnerLoop size (b.size - (offset - bno)) w
          (if offset - bno = 0 then ba else ba + 1)).2
        (vis + 1) (by omega)
      rw [hrec, List.length_cons]
      omega
    · rw [if_neg hhit]
      have hrec := ih offset (bno + b.size) w (ba + 1) (vis + 1) (by omega)
      rw [hrec, List.length_cons]
      omega

/-- The deallocation loop of `ModifiedContiguousFileSystem::delete_file`
succeeds on an in-range chain and clears exactly the chain's blocks. -/
theorem resetChain_spec (ms : Nat) :
    ∀ (c : List MRun) (mm : Nat → Bool),
      (∀ r ∈ c, r.size = 0 ∨ r.start_block + r.size ≤ ms) →
      ∃ mm', resetChain ms mm c = some mm' ∧
        ∀ t, ((∃ r ∈ c, t ∈ MRun.blocks r) → mm' t = false) ∧
             ((∀ r ∈ c, t ∉ MRun.blocks r) → mm' t = mm t) := by
  intro c
  induction c with
  | nil =>
    intro mm _
    refine ⟨mm, rfl, ?_⟩
    intro t
    constructor
    · intro ⟨r, hr, _⟩
      exact absurd hr (List.not_mem_nil r)
    · intro _
      rfl
  | cons b rest ih =>
    intro mm hin
    have hb := hin b (List.mem_cons_self _ _)
    have hw := writeRangeI_char ms false b.size mm b.start_block hb
    obtain ⟨mm', hmm', hprop⟩ := ih
      (fun t => if b.start_block ≤ t ∧ t < b.start_block + b.size then false else mm t)
      (fun r hr => hin r (List.mem_cons_of_mem _ hr))
    refine ⟨mm', ?_, ?_⟩
    · show (writeRangeI ms mm ((b.start_block : Nat) : Int) false b.size).bind
        (fun m => resetChain ms m rest) = some mm'
      rw [hw, optionBind_some]
      exact hmm'
    · intro t
      constructor
      · intro ⟨r, hr, htr⟩
        rcases List.mem_cons.mp hr with heq | hr
        · rw [heq] at htr
          by_cases hrest : ∃ q ∈ rest, t ∈ MRun.blocks q
          · exact (hprop t).1 hrest
          · push_neg at hrest
            rw [(hprop t).2 hrest]
            have htr' : b.start_block ≤ t ∧ t < b.start_block + b.size := Finset.mem_Ico.mp htr
            rw [if_pos htr']
        · exact (hprop t).1 ⟨r, hr, htr⟩
      · intro hnone
        have h1 := (hprop t).2 (fun r hr => hnone r (List.mem_cons_of_mem _ hr))
        have hnb : ¬(b.start_block ≤ t ∧ t < b.start_block + b.size) := by
          intro hcon
          exact hnone b (List.mem_cons_self _ _) (Finset.mem_Ico.mpr hcon)
        rw [h1, if_neg hnb]

theorem mcfsCreate_inv (s : MState) (n : String) (k : Nat) (s' : MState)
    (hinv : mcfsInv s) (h : mcfsCreate s n k = some s') : mcfsInv s' := by
  unfold mcfsCreate at h
  by_cases hdup : (fmFind s.file_map n).isSome
  · rw [if_pos hdup] at h
    obtain rfl : s = s' := by injection h
    exact hinv
  · rw [if_neg hdup] at h
    have hfnone : fmFind s.file_map n = none := Option.not_isSome_iff_eq_none.mp hdup
    obtain ⟨hms, hmm, hum, hst, hsound⟩ := cGetIndex_sound s.base k
    by_cases hr : (cGetIndex s.base k).1 = -1
    · rw [if_pos hr] at h
      obtain rfl : ({ s with base := (cGetIndex s.base k).2 } : MState) = s' := by injection h
      exact mcfsInv_transport s _ hms hmm rfl hinv
    · rw [if_neg hr] at h
      obtain ⟨a, ha, hrun⟩ := hsound hr
      have hbound : k = 0 ∨ a + k ≤ s.base.memory_size := by
        rcases Nat.eq_zero_or_pos k with hk | hk
        · exact Or.inl hk
        · right
          have := (hrun (a + k - 1) (by omega) (by omega)).1
          omega
      rw [hms, hmm, ha] at h
      rw [show ((a : Int)).toNat = a from Int.toNat_natCast a] at h
      rw [writeRangeI_char s.base.memory_size true k s.base.memory_map a hbound,
        optionMap_some] at h
      obtain rfl : (⟨{ (cGetIndex s.base k).2 with
          memory_map := (fun t => if a ≤ t ∧ t < a + k then true else s.base.memory_map t)
          used_memory := (cGetIndex s.base k).2.used_memory + k },
        fmInsert s.file_map n ⟨k, [⟨a, k⟩]⟩⟩ : MState) = s' := by injection h
      obtain ⟨h1, h2, h3, h4, h5⟩ := hinv
      have hAR : allRuns (fmInsert s.file_map n ⟨k, [⟨a, k⟩]⟩) =
          allRuns s.file_map ++ [⟨a, k⟩] := by
        show allRuns (s.file_map ++ [(n, ⟨k, [⟨a, k⟩]⟩)]) = _
        rw [allRuns_append]
        rfl
      have hfree : ∀ t ∈ MRun.blocks ⟨a, k⟩, s.base.memory_map t = false := by
        intro t ht
        have ht' := Finset.mem_Ico.mp ht
        exact (hrun t ht'.1 ht'.2).2
      have hnotowned : ∀ r ∈ allRuns s.file_map,
          Disjoint (MRun.blocks r) (MRun.blocks ⟨a, k⟩) := by
        intro r hrr
        rw [Finset.disjoint_right]
        intro t ht hrt
        have hmt := (h5 t).2 ⟨r, hrr, hrt⟩
        rw [hfree t ht] at hmt
        exact Bool.noConfusion hmt
      refine ⟨?_, ?_, ?_, ?_, ?_⟩
      · exact fmInsert_keys_nodup s.file_map n _ h1 hfnone
      · intro p hp
        rcases List.mem_append.mp hp with hp | hp
        · exact h2 p hp
        · simp only [List.mem_singleton] at hp
          subst hp
          refine ⟨?_, ?_⟩
          · show chainSize [⟨a, k⟩] = k
            simp [chainSize]
          · exact List.cons_ne_nil _ _
      · show ∀ r ∈ allRuns (fmInsert s.file_map n ⟨k, [⟨a, k⟩]⟩),
          MRun.blocks r ⊆ Finset.range (cGetIndex s.base k).2.memory_size
        rw [hms, hAR]
        intro r hrr
        rcases List.mem_append.mp hrr with hrr | hrr
        · exact h3 r hrr
        · simp only [List.mem_singleton] at hrr
          subst hrr
          intro t ht
          have ht' := Finset.mem_Ico.mp ht
          exact Finset.mem_range.mpr (hrun t ht'.1 ht'.2).1
      · show (allRuns (fmInsert s.file_map n ⟨k, [⟨a, k⟩]⟩)).Pairwise
          (fun r q => Disjoint r.blocks q.blocks)
        rw [hAR, List.pairwise_append]
        refine ⟨h4, List.pairwise_singleton _ _, ?_⟩
        intro r hrr q hq
        simp only [List.mem_singleton] at hq
        subst hq
        exact hnotowned r hrr
      · intro bk
        show (if a ≤ bk ∧ bk < a + k then true else s.base.memory_map bk) = true ↔
          ∃ r ∈ allRuns (fmInsert s.file_map n ⟨k, [⟨a, k⟩]⟩), bk ∈ MRun.blocks r
        rw [hAR]
        constructor
        · intro hbk
          by_cases hwin : a ≤ bk ∧ bk < a + k
          · exact ⟨⟨a, k⟩, List.mem_append_right _ (List.mem_singleton_self _),
              Finset.mem_Ico.mpr hwin⟩
          · rw [if_neg hwin] at hbk
            obtain ⟨r, hrr, hbr⟩ := (h5 bk).1 hbk
            exact ⟨r, List.mem_append_left _ hrr, hbr⟩
        · intro ⟨r, hrr, hbr⟩
          rcases List.mem_append.mp hrr with hrr | hrr
          · by_cases hwin : a ≤ bk ∧ bk < a + k
            · rw [if_pos hwin]
            · rw [if_neg hwin]
              exact (h5 bk).2 ⟨r, hrr, hbr⟩
          · simp only [List.mem_singleton] at hrr
            subst hrr
            rw [if_pos (Finset.mem_Ico.mp hbr)]

theorem mcfsDelete_inv (s : MState) (n : String) (s' : MState)
    (hinv : mcfsInv s) (h : mcfsDelete s n = some s') : mcfsInv s' := by
  unfold mcfsDelete at h
  cases hfind : fmFind s.file_map n with
  | none =>
    rw [hfind] at h
    dsimp only at h
    obtain rfl : s = s' := by injection h
    exact hinv
  | some f =>
    rw [hfind] at h
    dsimp only at h
    obtain ⟨h1, h2, h3, h4, h5⟩ := hinv
    obtain ⟨l1, l2, hsplit, hl1⟩ := fmFind_split s.file_map n f hfind
    have hl2 : n ∉ l2.map Prod.fst := (nodupKeys_split l1 l2 n f (hsplit ▸ h1)).2
    have hARs : allRuns s.file_map = allRuns l1 ++ (f.chain ++ allRuns l2) := by
      rw [hsplit, allRuns_append]
      rfl
    have hbounds : ∀ r ∈ f.chain,
        r.size = 0 ∨ r.start_block + r.size ≤ s.base.memory_size := by
      intro r hrr
      have hsubr := h3 r (by
        rw [hARs]
        exact List.mem_append_right _ (List.mem_append_left _ hrr))
      rcases Nat.eq_zero_or_pos r.size with h0 | hpos
      · exact Or.inl h0
      · right
        have hmem : r.start_block + r.size - 1 ∈ MRun.blocks r :=
          Finset.mem_Ico.mpr (by omega)
        have := Finset.mem_range.mp (hsubr hmem)
        omega
    obtain ⟨mm', hreset, hprop⟩ :=
      resetChain_spec s.base.memory_size f.chain s.base.memory_map hbounds
    rw [hreset, optionMap_some] at h
    obtain rfl : (⟨{ s.base with
        memory_map := mm'
        used_memory := s.base.used_memory - f.filesize },
      fmErase s.file_map n⟩ : MState) = s' := by injection h
    have hErase : fmErase s.file_map n = l1 ++ l2 := by
      rw [hsplit]
      exact fmErase_eq_of_split l1 l2 n f hl1 hl2
    have hARe : allRuns (fmErase s.file_map n) = allRuns l1 ++ allRuns l2 := by
      rw [hErase, allRuns_append]
    have hmem_old : ∀ r : MRun, r ∈ allRuns l1 ++ allRuns l2 → r ∈ allRuns s.file_map := by
      intro r hrr
      rw [hARs]
      rcases List.mem_append.mp hrr with hrr | hrr
      · exact List.mem_append_left _ hrr
      · exact List.mem_append_right _ (List.mem_append_right _ hrr)
    have h4' := h4
    rw [hARs, List.pairwise_append] at h4'
    obtain ⟨hp1, hp2, hcrA⟩ := h4'
    rw [List.pairwise_append] at hp2
    obtain ⟨hpc, hpl2, hcrCB⟩ := hp2
    have hdisjf : ∀ r ∈ allRuns l1 ++ allRuns l2, ∀ q ∈ f.chain,
        Disjoint (MRun.blocks r) (MRun.blocks q) := by
      intro r hrr q hq
      rcases List.mem_append.mp hrr with hrr | hrr
      · exact hcrA r hrr q (List.mem_append_left _ hq)
      · exact (hcrCB q hq r hrr).symm
    refine ⟨?_, ?_, ?_, ?_, ?_⟩
    · exact fmErase_keys_nodup s.file_map n h1
    · show ∀ p ∈ fmErase s.file_map n,
        chainSize (p.2 : MFile).chain = p.2.filesize ∧ p.2.chain ≠ []
      rw [hErase]
      intro p hp
      have hps : p ∈ s.file_map := by
        rw [hsplit]
        rcases List.mem_append.mp hp with hp | hp
        · exact List.mem_append_left _ hp
        · exact List.mem_append_right _ (List.mem_cons_of_mem _ hp)
      exact h2 p hps
    · show ∀ r ∈ allRuns (fmErase s.file_map n),
        MRun.blocks r ⊆ Finset.range s.base.memory_size
      rw [hARe]
      intro r hrr
      exact h3 r (hmem_old r hrr)
    · show (allRuns (fmErase s.file_map n)).Pairwise (fun r q => Disjoint r.blocks q.blocks)
      rw [hARe, List.pairwise_append]
      refine ⟨hp1, hpl2, ?_⟩
      intro r hrr q hq
      exact hcrA r hrr q (List.mem_append_right _ hq)
    · intro bk
      show mm' bk = true ↔ ∃ r ∈ allRuns (fmErase s.file_map n), bk ∈ MRun.blocks r
      rw [hARe]
      constructor
      · intro hbk
        by_cases hcc : ∃ q ∈ f.chain, bk ∈ MRun.blocks q
        · rw [(hprop bk).1 hcc] at hbk
          exact Bool.noConfusion hbk
        · push_neg at hcc
          rw [(hprop bk).2 hcc] at hbk
          obtain ⟨r, hrr, hbr⟩ := (h5 bk).1 hbk
          rw [hARs] at hrr
          rcases List.mem_append.mp hrr with hrr | hrr
          · exact ⟨r, List.mem_append_left _ hrr, hbr⟩
          · rcases List.mem_append.mp hrr with hrr | hrr
            · exact absurd hbr (hcc r hrr)
            · exact ⟨r, List.mem_append_right _ hrr, hbr⟩
      · intro ⟨r, hrr, hbr⟩
        have hcc : ∀ q ∈ f.chain, bk ∉ MRun.blocks q := by
          intro q hq hbq
          exact (Finset.disjoint_left.mp (hdisjf r hrr q hq)) hbr hbq
        rw [(hprop bk).2 hcc]
        exact (h5 bk).2 ⟨r, hmem_old r hrr, hbr⟩

theorem mcfsWrite_inv (s : MState) (n : String) (sz off : Nat) (s' : MState) (ba : Nat)
    (hinv : mcfsInv s) (h : mcfsWrite s n sz off = some (s', ba)) : mcfsInv s' := by
  unfold mcfsWrite at h
  cases hfind : fmFind s.file_map n with
  | none =>
    rw [hfind] at h
    dsimp only at h
    simp only [Option.some.injEq, Prod.mk.injEq] at h
    obtain ⟨rfl, rfl⟩ := h
    exact hinv
  | some f =>
    rw [hfind] at h
    dsimp only at h
    by_cases hgrow : f.filesize < sz + off
    · rw [if_pos hgrow] at h
      obtain ⟨hms, hmm, hum, hst, hsound⟩ := cGetIndex_sound s.base (sz + off - f.filesize)
      by_cases hr : (cGetIndex s.base (sz + off - f.filesize)).1 = -1
      · rw [hms, hmm] at h
        rw [writeRangeI_neg s.base.memory_size s.base.memory_map
          ((cGetIndex s.base (sz + off - f.filesize)).1) true (sz + off - f.filesize)
          (by rw [hr]; omega) (by omega), optionBind_none] at h
        exact Option.noConfusion h
      · obtain ⟨a, ha, hrun⟩ := hsound hr
        have hreq1 : 0 < sz + off - f.filesize := by omega
        have hbound : sz + off - f.filesize = 0 ∨
            a + (sz + off - f.filesize) ≤ s.base.memory_size := by
          right
          have := (hrun (a + (sz + off - f.filesize) - 1) (by omega) (by omega)).1
          omega
        rw [hms, hmm, ha] at h
        rw [show ((a : Int)).toNat = a from Int.toNat_natCast a] at h
        rw [writeRangeI_char s.base.memory_size true (sz + off - f.filesize)
          s.base.memory_map a hbound, optionBind_some] at h
        rw [if_neg (by omega : ¬((a : Int) = -1))] at h
        by_cases hsz : sz = 0
        · subst hsz
          have ht0 : (mWriteLoop 0 f.chain off 0 0 1 0).2.2 = 0 := by
            cases hch : f.chain with
            | nil => rfl
            | cons b rest =>
              simp only [mWriteLoop]
              rw [if_neg (by omega : ¬(0 : Nat) < 0)]
          rw [if_pos ht0] at h
          exact Option.noConfusion h
        · obtain ⟨h1, h2, h3, h4, h5⟩ := hinv
          obtain ⟨l1, l2, hsplit, hl1⟩ := fmFind_split s.file_map n f hfind
          have hl2 : n ∉ l2.map Prod.fst := (nodupKeys_split l1 l2 n f (hsplit ▸ h1)).2
          have hmemf : (n, f) ∈ s.file_map := by
            rw [hsplit]
            exact List.mem_append_right _ (List.mem_cons_self _ _)
          obtain ⟨hcs, hcne⟩ := h2 (n, f) hmemf
          have hvis : (mWriteLoop sz f.chain off 0 0 1 0).2.2 = 0 + f.chain.length :=
            mWriteLoop_visits_all sz f.chain off 0 0 1 0 (by
              have hcs' : chainSize f.chain = f.filesize := hcs
              omega)
          have hvis' : (mWriteLoop sz f.chain off 0 0 1 0).2.2 = f.chain.length := by omega
          have hne0 : ¬((mWriteLoop sz f.chain off 0 0 1 0).2.2 = 0) := by
            rw [hvis']
            intro hcon
            exact hcne (List.length_eq_zero.mp hcon)
          rw [if_neg hne0] at h
          simp only [Option.some.injEq, Prod.mk.injEq] at h
          obtain ⟨rfl, rfl⟩ := h
          have htake : f.chain.take (mWriteLoop sz f.chain off 0 0 1 0).2.2 = f.chain := by
            rw [hvis']
            exact List.take_length f.chain
          have hupd : fmUpdate s.file_map n (fun x =>
              { filesize := x.filesize + (sz + off - f.filesize),
                chain := x.chain.take (mWriteLoop sz f.chain off 0 0 1 0).2.2 ++
                  [⟨a, sz + off - f.filesize⟩] }) =
              l1 ++ (n, (⟨f.filesize + (sz + off - f.filesize),
                f.chain.take (mWriteLoop sz f.chain off 0 0 1 0).2.2 ++
                  [⟨a, sz + off - f.filesize⟩]⟩ : MFile)) :: l2 := by
            rw [hsplit]
            exact fmUpdate_eq_of_split l1 l2 n f _ hl1 hl2
          have hARs : allRuns s.file_map = allRuns l1 ++ (f.chain ++ allRuns l2) := by
            rw [hsplit, allRuns_append]
            rfl
          have hARcons : allRuns ((n, (⟨f.filesize + (sz + off - f.filesize),
              f.chain.take (mWriteLoop sz f.chain off 0 0 1 0).2.2 ++
                [⟨a, sz + off - f.filesize⟩]⟩ : MFile)) :: l2) =
              (f.chain.take (mWriteLoop sz f.chain off 0 0 1 0).2.2 ++
                [⟨a, sz + off - f.filesize⟩]) ++ allRuns l2 := rfl
          have hold : ∀ r : MRun,
              r ∈ allRuns l1 ∨ (r ∈ f.chain ∨ r ∈ allRuns l2) → r ∈ allRuns s.file_map := by
            intro r hrr
            rw [hARs]
            rcases hrr with hrr | hrr | hrr
            · exact List.mem_append_left _ hrr
            · exact List.mem_append_right _ (List.mem_append_left _ hrr)
            · exact List.mem_append_right _ (List.mem_append_right _ hrr)
          have hmemold : ∀ p, p ∈ l1 ∨ p ∈ l2 → p ∈ s.file_map := by
            intro p hp
            rw [hsplit]
            rcases hp with hp | hp
            · exact List.mem_append_left _ hp
            · exact List.mem_append_right _ (List.mem_cons_of_mem _ hp)
          have hfree : ∀ t ∈ MRun.blocks ⟨a, sz + off - f.filesize⟩,
              s.base.memory_map t = false := by
            intro t ht
            have ht' := Finset.mem_Ico.mp ht
            exact (hrun t ht'.1 ht'.2).2
          have hnotowned : ∀ r ∈ allRuns s.file_map,
              Disjoint (MRun.blocks r) (MRun.blocks ⟨a, sz + off - f.filesize⟩) := by
            intro r hrr
            rw [Finset.disjoint_right]
            intro t ht hrt
            have hmt := (h5 t).2 ⟨r, hrr, hrt⟩
            rw [hfree t ht] at hmt
            exact Bool.noConfusion hmt
          have h4' := h4
          rw [hARs, List.pairwise_append] at h4'
          obtain ⟨hpA, hp2, hcrA⟩ := h4'
          rw [List.pairwise_append] at hp2
          obtain ⟨hpC, hpB, hcrCB⟩ := hp2
          have hsingle : chainSize [(⟨a, sz + off - f.filesize⟩ : MRun)] =
              sz + off - f.filesize := by
            simp [chainSize]
          refine ⟨?_, ?_, ?_, ?_, ?_⟩
          · show ((fmUpdate s.file_map n (fun x =>
              { filesize := x.filesize + (sz + off - f.filesize),
                chain := x.chain.take (mWriteLoop sz f.chain off 0 0 1 0).2.2 ++
                  [⟨a, sz + off - f.filesize⟩] })).map Prod.fst).Nodup
            rw [fmUpdate_keys]
            exact h1
          · show ∀ p ∈ fmUpdate s.file_map n (fun x =>
              { filesize := x.filesize + (sz + off - f.filesize),
                chain := x.chain.take (mWriteLoop sz f.chain off 0 0 1 0).2.2 ++
                  [⟨a, sz + off - f.filesize⟩] }),
              chainSize (p.2 : MFile).chain = p.2.filesize ∧ p.2.chain ≠ []
            rw [hupd]
            intro p hp
            rcases List.mem_append.mp hp with hp | hp
            · exact h2 p (hmemold p (Or.inl hp))
            · rcases List.mem_cons.mp hp with heq | hp
              · subst heq
                refine ⟨?_, ?_⟩
                · show chainSize (f.chain.take (mWriteLoop sz f.chain off 0 0 1 0).2.2 ++
                    [⟨a, sz + off - f.filesize⟩]) = f.filesize + (sz + off - f.filesize)
                  rw [htake, chainSize_append, hcs, hsingle]
                · show f.chain.take (mWriteLoop sz f.chain off 0 0 1 0).2.2 ++
                    [⟨a, sz + off - f.filesize⟩] ≠ []
                  intro hcon
                  have hx : (⟨a, sz + off - f.filesize⟩ : MRun) ∈ ([] : List MRun) :=
                    hcon ▸ List.mem_append_right _ (List.mem_singleton_self _)
                  exact absurd hx (List.not_mem_nil _)
              · exact h2 p (hmemold p (Or.inr hp))
          · show ∀ r ∈ allRuns (fmUpdate s.file_map n (fun x =>
              { filesize := x.filesize + (sz + off - f.filesize),
                chain := x.chain.take (mWriteLoop sz f.chain off 0 0 1 0).2.2 ++
                  [⟨a, sz + off - f.filesize⟩] })),
              MRun.blocks r ⊆ Finset.range s.base.memory_size
            rw [hupd, allRuns_append, hARcons, htake]
            intro r hrr
            rcases List.mem_append.mp hrr with hrr | hrr
            · exact h3 r (hold r (Or.inl hrr))
            · rcases List.mem_append.mp hrr with hrr | hrr
              · rcases List.mem_append.mp hrr with hrr | hrr
                · exact h3 r (hold r (Or.inr (Or.inl hrr)))
                · simp only [List.mem_singleton] at hrr
                  subst hrr
                  intro t ht
                  have ht' := Finset.mem_Ico.mp ht
                  exact Finset.mem_range.mpr (hrun t ht'.1 ht'.2).1
              · exact h3 r (hold r (Or.inr (Or.inr hrr)))
          · show (allRuns (fmUpdate s.file_map n (fun x =>
              { filesize := x.filesize + (sz + off - f.filesize),
                chain := x.chain.take (mWriteLoop sz f.chain off 0 0 1 0).2.2 ++
                  [⟨a, sz + off - f.filesize⟩] }))).Pairwise
              (fun r q => Disjoint r.blocks q.blocks)
            rw [hupd, allRuns_append, hARcons, htake, List.pairwise_append]
            refine ⟨hpA, ?_, ?_⟩
            · rw [List.pairwise_append]
              refine ⟨?_, hpB, ?_⟩
              · rw [List.pairwise_append]
                refine ⟨hpC, List.pairwise_singleton _ _, ?_⟩
                intro c hc y hy
                simp only [List.mem_singleton] at hy
                subst hy
                exact hnotowned c (hold c (Or.inr (Or.inl hc)))
              · intro p hp q hq
                rcases List.mem_append.mp hp with hp | hp
                · exact hcrCB p hp q hq
                · simp only [List.mem_singleton] at hp
                  subst hp
                  exact (hnotowned q (hold q (Or.inr (Or.inr hq)))).symm
            · intro p hp q hq
              rcases List.mem_append.mp hq with hq | hq
              · rcases List.mem_append.mp hq with hq | hq
                · exact hcrA p hp q (List.mem_append_left _ hq)
                · simp only [List.mem_singleton] at hq
                  subst hq
                  exact hnotowned p (hold p (Or.inl hp))
              · exact hcrA p hp q (List.mem_append_right _ hq)
          · intro bk
            show (if a ≤ bk ∧ bk < a + (sz + off - f.filesize) then true
                else s.base.memory_map bk) = true ↔
              ∃ r ∈ allRuns (fmUpdate s.file_map n (fun x =>
                { filesize := x.filesize + (sz + off - f.filesize),
                  chain := x.chain.take (mWriteLoop sz f.chain off 0 0 1 0).2.2 ++
                    [⟨a, sz + off - f.filesize⟩] })), bk ∈ MRun.blocks r
            rw [hupd, allRuns_append, hARcons, htake]
            constructor
            · intro hbk
              by_cases hwin : a ≤ bk ∧ bk < a + (sz + off - f.filesize)
              · refine ⟨⟨a, sz + off - f.filesize⟩, ?_, Finset.mem_Ico.mpr hwin⟩
                exact List.mem_append_right _ (List.mem_append_left _
                  (List.mem_append_right _ (List.mem_singleton_self _)))
              · rw [if_neg hwin] at hbk
                obtain ⟨r, hrr, hbr⟩ := (h5 bk).1 hbk
                rw [hARs] at hrr
                rcases List.mem_append.mp hrr with hrr | hrr
                · exact ⟨r, List.mem_append_left _ hrr, hbr⟩
                · rcases List.mem_append.mp hrr with hrr | hrr
                  · exact ⟨r, List.mem_append_right _ (List.mem_append_left _
                      (List.mem_append_left _ hrr)), hbr⟩
                  · exact ⟨r, List.mem_append_right _ (List.mem_append_right _ hrr), hbr⟩
            · intro ⟨r, hrr, hbr⟩
              by_cases hwin : a ≤ bk ∧ bk < a + (sz + off - f.filesize)
              · rw [if_pos hwin]
              · rw [if_neg hwin]
                rcases List.mem_append.mp hrr with hrr | hrr
                · exact (h5 bk).2 ⟨r, hold r (Or.inl hrr), hbr⟩
                · rcases List.mem_append.mp hrr with hrr | hrr
                  · rcases List.mem_append.mp hrr with hrr | hrr
                    · exact (h5 bk).2 ⟨r, hold r (Or.inr (Or.inl hrr)), hbr⟩
                    · simp only [List.mem_singleton] at hrr
                      subst hrr
                      exact absurd (Finset.mem_Ico.mp hbr) hwin
                  · exact (h5 bk).2 ⟨r, hold r (Or.inr (Or.inr hrr)), hbr⟩
    · rw [if_neg hgrow] at h
      simp only [Option.some.injEq, Prod.mk.injEq] at h
      obtain ⟨rfl, rfl⟩ := h
      exact hinv

theorem mStep_inv (s : MState) (op : Op) (s' : MState)
    (hinv : mcfsInv s) (h : mStep s op = some s') : mcfsInv s' := by
  cases op with
  | create n k => exact mcfsCreate_inv s n k s' hinv h
  | write n k off =>
    simp only [mStep] at h
    cases hw : mcfsWrite s n k off with
    | none =>
      rw [hw, optionMap_none] at h
      exact Option.noConfusion h
    | some p =>
      rw [hw, optionMap_some] at h
      obtain rfl : p.1 = s' := by injection h
      exact mcfsWrite_inv s n k off p.1 p.2 hinv (by rw [hw])
  | delete n => exact mcfsDelete_inv s n s' hinv h

theorem mInit_inv (n : Nat) (strat : Strategy) : mcfsInv (mInit n strat) := by
  refine ⟨List.nodup_nil, ?_, ?_, List.Pairwise.nil, ?_⟩
  · intro p hp
    exact absurd hp (List.not_mem_nil p)
  · intro r hrr
    exact absurd hrr (List.not_mem_nil r)
  · intro bk
    constructor
    · intro hbk
      exact Bool.noConfusion hbk
    · intro ⟨r, hrr, _⟩
      exact absurd hrr (List.not_mem_nil r)

/-- C2 (amended): along every command sequence, the sum of the live
file sizes equals the popcount of the block map for the contiguous and
modified-contiguous allocators and equals `N` minus the free-queue
length for the indexed allocator; for the linked allocator the latter
holds provided the sequence contains no create of size `0` (such a
create consumes one block without accounting for it).  States reached
after a crash (`none`) are exempt. -/
theorem c2_amended (N : Nat) (strat : Strategy) (ops : List Op) :
    ((runOps cStep (cInit N strat) ops).elim True (fun s =>
      popcount s.base.memory_size s.base.memory_map = sumSizes CFile.filesize s.file_map)) ∧
    ((runOps mStep (mInit N strat) ops).elim True (fun s =>
      popcount s.base.memory_size s.base.memory_map = sumSizes MFile.filesize s.file_map)) ∧
    ((runOps iStep (iInit N) ops).elim True (fun s =>
      sumSizes IFile.filesize s.file_map = N - s.free_list.length)) ∧
    ((∀ m, Op.create m 0 ∉ ops) →
      (runOps lStep (lInit N) ops).elim True (fun s =>
        sumSizes LFile.filesize s.file_map = N - s.free_list.length)) := by
  refine ⟨?_, ?_, ?_, ?_⟩
  · cases hrun : runOps cStep (cInit N strat) ops with
    | none => exact True.intro
    | some s1 =>
      show popcount s1.base.memory_size s1.base.memory_map =
        sumSizes CFile.filesize s1.file_map
      exact cfsInv_popcount s1 (runOps_inv cStep cfsInv (fun _ => True)
        (fun s op s' _ hi hs => cStep_inv s op s' hi hs) ops (cInit N strat) s1
        (fun _ _ => True.intro) (cInit_inv N strat) hrun)
  · cases hrun : runOps mStep (mInit N strat) ops with
    | none => exact True.intro
    | some s1 =>
      show popcount s1.base.memory_size s1.base.memory_map =
        sumSizes MFile.filesize s1.file_map
      exact mcfsInv_popcount s1 (runOps_inv mStep mcfsInv (fun _ => True)
        (fun s op s' _ hi hs => mStep_inv s op s' hi hs) ops (mInit N strat) s1
        (fun _ _ => True.intro) (mInit_inv N strat) hrun)
  · cases hrun : runOps iStep (iInit N) ops with
    | none => exact True.intro
    | some s1 =>
      show sumSizes IFile.filesize s1.file_map = N - s1.free_list.length
      have hinv : ifsInv s1 ∧ s1.memory_size = N :=
        runOps_inv iStep (fun s => ifsInv s ∧ s.memory_size = N) (fun _ => True)
          (fun s op s' _ hi hs =>
            ⟨iStep_inv s op s' hi.1 hs, by rw [iStep_msize s op s' hs]; exact hi.2⟩)
          ops (iInit N) s1 (fun _ _ => True.intro) ⟨iInit_inv N, rfl⟩ hrun
      obtain ⟨⟨hn, hlen, hsum⟩, hN⟩ := hinv
      omega
  · intro hno
    cases hrun : runOps lStep (lInit N) ops with
    | none => exact True.intro
    | some s1 =>
      show sumSizes LFile.filesize s1.file_map = N - s1.free_list.length
      have hinv : lfsInv s1 ∧ s1.memory_size = N :=
        runOps_inv lStep (fun s => lfsInv s ∧ s.memory_size = N)
          (fun op => ∀ m, op ≠ Op.create m 0)
          (fun s op s' hP hi hs =>
            ⟨lStep_inv s op s' hP hi.1 hs, by rw [lStep_msize s op s' hs]; exact hi.2⟩)
          ops (lInit N) s1
          (fun op hop m heq => hno m (heq ▸ hop)) ⟨lInit_inv N, rfl⟩ hrun
      obtain ⟨⟨hn, hlen, hsum⟩, hN⟩ := hinv
      omega

/-- C2 counterexample: on `LinkedFileSystem<2>` a create of size `0`
pops one block off the free queue but registers a zero-sized file, so
the live sizes sum to `0` while `N` minus the free-queue length is
`1`. -/
theorem c2_counterexample :
    runOps lStep (lInit 2) [Op.create "a" 0] =
      some ⟨2, [1], [("a", ⟨0, [0]⟩)], 0⟩ ∧
    sumSizes LFile.filesize [("a", (⟨0, [0]⟩ : LFile))] ≠ 2 - [(1 : Nat)].length :=
  ⟨rfl, by decide⟩

/-- C2 witness: the accounting identity evaluated after `CREATE a 1` on
2-block instances of all four allocators. -/
theorem c2_witness :
    ((runOps cStep (cInit 2 .FIRST_FIT) [Op.create "a" 1]).elim True (fun s =>
      popcount s.base.memory_size s.base.memory_map = sumSizes CFile.filesize s.file_map)) ∧
    ((runOps mStep (mInit 2 .FIRST_FIT) [Op.create "a" 1]).elim True (fun s =>
      popcount s.base.memory_size s.base.memory_map = sumSizes MFile.filesize s.file_map)) ∧
    ((runOps iStep (iInit 2) [Op.create "a" 1]).elim True (fun s =>
      sumSizes IFile.filesize s.file_map = 2 - s.free_list.length)) ∧
    ((runOps lStep (lInit 2) [Op.create "a" 1]).elim True (fun s =>
      sumSizes LFile.filesize s.file_map = 2 - s.free_list.length)) := by
  obtain ⟨hc, hm, hi, hl⟩ := c2_amended 2 .FIRST_FIT [Op.create "a" 1]
  refine ⟨hc, hm, hi, hl ?_⟩
  intro m hmem
  simp only [List.mem_singleton] at hmem
  injection hmem with h1 h2
  exact absurd h2 (by decide)

end FileSys
